import Mathlib

/-!
Verification of the Krew web-scraper core (`scraper.py`) against its
natural-language specification.

The development shallowly embeds the pure computational content of the
source: URL normalization and eligibility filtering (`WebCrawler.normalize_url`,
`WebCrawler.is_valid_url`, including a model of Python's
`urllib.parse.urlparse` restricted to control-character-free input),
content extraction over a parsed DOM (`ContentExtractor`), metadata
enrichment (`ContentEnricher`), fetch-outcome classification
(`WebCrawler.fetch_page`) and the crawl loop (`WebCrawler.crawl`).
External effects (HTTP, the HTML parser producing a DOM, `urljoin`
resolution of hrefs, `langdetect`, the wall clock) are supplied by a
`World` of oracles; everything the source computes from their results is
embedded as executable Lean definitions.  The crawl loop is fuel-indexed
and additionally returns the trace of observable events (fetches, skips,
document emissions, politeness sleeps) so that temporal claims can be
stated.
-/

namespace Scraper

/-! ## Python string primitives

Characters are compared through their code points.  Whitespace and
case-mapping are modelled on the ASCII range, which is where every
pattern the scraper matches lives; Python's Unicode case/space classes
agree with these on ASCII. -/

/-- Whitespace class of Python's `re` module `\s` and `str.strip`/`str.split`
(ASCII part): space, tab, newline, carriage return, vertical tab, form feed. -/
def pyIsSpace (c : Char) : Bool :=
  c = ' ' || c = '\t' || c = '\n' || c = '\r' || c = '\x0b' || c = '\x0c'

/-- ASCII letter test, as used by Python's `str.isascii() and str.isalpha()`
guard on the first character of a URL scheme. -/
def pyIsAsciiAlpha (c : Char) : Bool :=
  (65 ≤ c.toNat && c.toNat ≤ 90) || (97 ≤ c.toNat && c.toNat ≤ 122)

/-- ASCII digit test. -/
def pyIsAsciiDigit (c : Char) : Bool :=
  48 ≤ c.toNat && c.toNat ≤ 57

/-- ASCII lower-casing of one character, the action of Python's `str.lower`
on the ASCII range. -/
def pyLowerChar (c : Char) : Char :=
  if 65 ≤ c.toNat ∧ c.toNat ≤ 90 then Char.ofNat (c.toNat + 32) else c

/-- ASCII lower-casing of a string (`str.lower`). -/
def pyLower (s : String) : String :=
  ⟨s.data.map pyLowerChar⟩

/-- Strip leading and trailing whitespace from a character list. -/
def pyStripCore (l : List Char) : List Char :=
  ((l.dropWhile pyIsSpace).reverse.dropWhile pyIsSpace).reverse

/-- Python `str.strip()`. -/
def pyStrip (s : String) : String :=
  ⟨pyStripCore s.data⟩

/-- Occurrence of `pat` as a contiguous sublist of `l`. -/
def listContains (pat : List Char) : List Char → Bool
  | [] => decide (pat = [])
  | c :: l => pat.isPrefixOf (c :: l) || listContains pat l

/-- Python's substring test `pat in s`. -/
def strContains (s pat : String) : Bool :=
  listContains pat.data s.data

/-- Maximal runs of non-whitespace characters, in order: a non-whitespace
character extends the run that the rest of the list starts with, or opens
a new run when the rest starts with whitespace or is empty. -/
def pyWordsCore : List Char → List (List Char)
  | [] => []
  | c :: l =>
    if pyIsSpace c then pyWordsCore l
    else
      match l, pyWordsCore l with
      | d :: _, w :: ws => if pyIsSpace d then [c] :: w :: ws else (c :: w) :: ws
      | _, r => [c] :: r

/-- Python `str.split()` with no argument: maximal runs of non-whitespace. -/
def pyWords (s : String) : List String :=
  (pyWordsCore s.data).map (fun w => ⟨w⟩)

/-- Split a character list at the first occurrence of the non-empty
pattern `sep`, returning the parts before and after it. -/
def splitFirstSub (sep : List Char) : List Char → Option (List Char × List Char)
  | [] => none
  | c :: l =>
    if sep.isPrefixOf (c :: l) then some ([], (c :: l).drop sep.length)
    else
      match splitFirstSub sep l with
      | none => none
      | some (pre, post) => some (c :: pre, post)

/-- Fuel-indexed worker for `splitOnSub`; for a non-empty separator any
fuel of at least the input length is enough, since each split consumes at
least one character. -/
def splitOnSubFuel (sep : List Char) : Nat → List Char → List (List Char)
  | 0, l => [l]
  | fuel + 1, l =>
    match splitFirstSub sep l with
    | none => [l]
    | some (pre, post) => pre :: splitOnSubFuel sep fuel post

/-- Python `str.split(sep)` for a non-empty separator: split at each
non-overlapping occurrence, left to right. -/
def splitOnSub (sep : List Char) (l : List Char) : List (List Char) :=
  splitOnSubFuel sep (l.length + 1) l

/-- Join character lists with a separator (Python `sep.join`). -/
def joinSep (sep : List Char) : List (List Char) → List Char
  | [] => []
  | [x] => x
  | x :: y :: xs => x ++ sep ++ joinSep sep (y :: xs)

/-! ## A model of `urllib.parse.urlparse`

Faithful to CPython's `urlsplit`/`urlparse` on input free of control
characters, tabs and newlines (recent CPython releases strip those
before parsing; no claim involves such input): optional scheme split at
the first `:` when the prefix is a valid scheme, `//`-introduced netloc
running to the first of `/?#`, fragment split at the first `#`, query
split at the first `?`, and (for `urlparse`) params split at the first
`;` of the last path segment. -/

/-- WHATWG C0-control-or-space class: code points up to `U+0020`. -/
def c0ControlOrSpace (c : Char) : Bool :=
  c.toNat ≤ 32

/-- A character that CPython's `urlsplit` does not delete from its input:
everything except tab, carriage return and newline. -/
def urlSafeChar (c : Char) : Bool :=
  !(c = '\t' || c = '\r' || c = '\n')

/-- Input sanitization performed by CPython's `urlsplit` before parsing:
strip leading C0-control-or-space characters, then delete every tab,
carriage return and newline. -/
def preClean (l : List Char) : List Char :=
  (l.dropWhile c0ControlOrSpace).filter urlSafeChar

/-- Split a character list at the first occurrence of `c`, returning the
parts before and after it. -/
def splitFirst (c : Char) : List Char → Option (List Char × List Char)
  | [] => none
  | a :: l =>
    if a = c then some ([], l)
    else
      match splitFirst c l with
      | none => none
      | some (pre, post) => some (a :: pre, post)

/-- Characters allowed after the first character of a URL scheme
(CPython's `scheme_chars`): ASCII letters, digits, `+`, `-`, `.`. -/
def schemeChars (c : Char) : Bool :=
  pyIsAsciiAlpha c || pyIsAsciiDigit c || c.toNat = 43 || c.toNat = 45 || c.toNat = 46

/-- A candidate scheme is valid when non-empty, starting with an ASCII
letter, with every further character in `schemeChars`. -/
def validScheme (pre : List Char) : Bool :=
  match pre with
  | [] => false
  | a :: rest => pyIsAsciiAlpha a && rest.all schemeChars

/-- Scheme extraction step of `urlsplit`: lower-cased scheme and remainder,
or no scheme and the whole input. -/
def schemeSplit (l : List Char) : List Char × List Char :=
  match splitFirst ':' l with
  | some (pre, post) =>
    if validScheme pre then (pre.map pyLowerChar, post) else ([], l)
  | none => ([], l)

/-- A character terminating the netloc: `/`, `?` or `#`. -/
def notDelim (c : Char) : Bool :=
  !(c = '/' || c = '?' || c = '#')

/-- Netloc extraction step of `urlsplit`: after a leading `//`, the netloc
runs to the first of `/?#`. -/
def netlocSplit (l : List Char) : List Char × List Char :=
  match l with
  | a :: b :: rest =>
    if a = '/' ∧ b = '/' then (rest.takeWhile notDelim, rest.dropWhile notDelim)
    else ([], l)
  | _ => ([], l)

/-- Fragment split at the first `#` (fragments allowed, the default). -/
def fragSplit (l : List Char) : List Char × List Char :=
  match splitFirst '#' l with
  | some (pre, post) => (pre, post)
  | none => (l, [])

/-- Query split at the first `?`. -/
def querySplit (l : List Char) : List Char × List Char :=
  match splitFirst '?' l with
  | some (pre, post) => (pre, post)
  | none => (l, [])

/-- Split `p` into the part up to and including its last `/` and the final
segment after it (meaningful when `/` occurs in `p`). -/
def lastSlashSplit (p : List Char) : List Char × List Char :=
  let revSeg := p.reverse.takeWhile (fun c => c ≠ '/')
  (p.take (p.length - revSeg.length), revSeg.reverse)

/-- CPython `_splitparams`: split params at the first `;` of the last path
segment (of the whole path when it has no `/`). -/
def paramsSplit (p : List Char) : List Char × List Char :=
  if '/' ∈ p then
    match splitFirst ';' (lastSlashSplit p).2 with
    | none => (p, [])
    | some (a, b) => ((lastSlashSplit p).1 ++ a, b)
  else
    match splitFirst ';' p with
    | none => (p, [])
    | some (a, b) => (a, b)

/-- Result of `urllib.parse.urlparse`. -/
structure UrlParts where
  scheme : List Char
  netloc : List Char
  path : List Char
  params : List Char
  query : List Char
  fragment : List Char
deriving DecidableEq

/-- The six-way split performed by `urllib.parse.urlparse`, after input
sanitization. -/
def urlparseCore (l0 : List Char) : UrlParts :=
  let l := preClean l0
  let s := schemeSplit l
  let n := netlocSplit s.2
  let f := fragSplit n.2
  let q := querySplit f.1
  let pp := if ';' ∈ q.1 then paramsSplit q.1 else (q.1, [])
  ⟨s.1, n.1, pp.1, pp.2, q.2, f.2⟩

/-- `urllib.parse.urlparse` on strings. -/
def urlparse (s : String) : UrlParts :=
  urlparseCore s.data

/-! ## `WebCrawler.normalize_url` and `WebCrawler.is_valid_url` -/

/-- Reassembly of `scheme://netloc+path` plus the query when non-empty,
before the trailing-slash strip of `normalize_url`. -/
def reassembleCore (l : List Char) : List Char :=
  let p := urlparseCore l
  let n := p.scheme ++ ':' :: '/' :: '/' :: [] ++ p.netloc ++ p.path
  if p.query ≠ [] then n ++ '?' :: p.query else n

/-- `WebCrawler.normalize_url` on character lists: reassemble scheme,
netloc, path and (when non-empty) query, then strip one trailing `/` when
the result ends with `/` and contains more than three `/` characters. -/
def normalizeCore (l : List Char) : List Char :=
  let n := reassembleCore l
  if n.getLast? = some '/' ∧ 3 < n.count '/' then n.dropLast else n

/-- `WebCrawler.normalize_url`. -/
def normalize_url (url : String) : String :=
  ⟨normalizeCore url.data⟩

/-- The crawler's skip-pattern block list, matched as substrings of the
lower-cased URL. -/
def skip_patterns : List String :=
  ["/login", "/logout", "/signin", "/signup", "/register",
   "/cart", "/checkout", "/account", "/search", "?search=", "?q=",
   ".pdf", ".jpg", ".png", ".gif", ".zip", ".exe", "#"]

/-- `WebCrawler.is_valid_url`: same netloc as the allowed domain and no
skip pattern occurring in the lower-cased URL. -/
def is_valid_url (allowed_domain : String) (url : String) : Bool :=
  if (urlparse url).netloc ≠ allowed_domain.data then false
  else if skip_patterns.any (fun pat => strContains (pyLower url) pat) then false
  else true

/-! ## DOM model

`BeautifulSoup(html, "html.parser")` itself is an external library; the
embedding works on its output, a tree of tags and navigable strings.  A
tag carries its name, its attributes (the `class` attribute as the raw
whitespace-separated string, which bs4 splits into a token list) and its
children; the whole soup is represented by its `[document]` root.  All
searches (`find`, `find_all`) are pre-order traversals of the
descendants of the searched element, as in bs4. -/

inductive Node where
  | text (s : String) : Node
  | elem (tag : String) (attrs : List (String × String)) (children : List Node) : Node

/-- Attribute lookup (`tag.get(name)`): first binding wins. -/
def attrGet (name : String) : List (String × String) → Option String
  | [] => none
  | (k, v) :: rest => if k = name then some v else attrGet name rest

/-- Children of a node (empty for a navigable string). -/
def nodeChildren : Node → List Node
  | .text _ => []
  | .elem _ _ cs => cs

mutual
/-- Pre-order search of a node and its descendants for the first element
satisfying the predicate on tag name and attributes. -/
def findInTree (p : String → List (String × String) → Bool) : Node → Option Node
  | .text _ => none
  | .elem t a cs =>
    if p t a then some (.elem t a cs) else findNodes p cs
/-- Pre-order search of a forest, bs4's `find` document order. -/
def findNodes (p : String → List (String × String) → Bool) : List Node → Option Node
  | [] => none
  | n :: ns =>
    match findInTree p n with
    | some r => some r
    | none => findNodes p ns
end

/-- bs4 `element.find(...)`: searches the element's descendants. -/
def findIn (p : String → List (String × String) → Bool) (n : Node) : Option Node :=
  findNodes p (nodeChildren n)

mutual
/-- All elements of a subtree (the root included) satisfying the
predicate, in pre-order. -/
def findAllTree (p : String → List (String × String) → Bool) : Node → List Node
  | .text _ => []
  | .elem t a cs =>
    (if p t a then [Node.elem t a cs] else []) ++ findAllNodes p cs
/-- All matching elements of a forest, bs4's `find_all` document order. -/
def findAllNodes (p : String → List (String × String) → Bool) : List Node → List Node
  | [] => []
  | n :: ns => findAllTree p n ++ findAllNodes p ns
end

/-- bs4 `element.find_all(...)` over an element's descendants. -/
def findAllIn (p : String → List (String × String) → Bool) (n : Node) : List Node :=
  findAllNodes p (nodeChildren n)

mutual
/-- All navigable strings below a node, in document order. -/
def nodeTexts : Node → List String
  | .text s => [s]
  | .elem _ _ cs => nodeTextsList cs
def nodeTextsList : List Node → List String
  | [] => []
  | n :: ns => nodeTexts n ++ nodeTextsList ns
end

/-- bs4 `tag.string`: the string of a lone navigable-string child, looking
through a lone tag child, `None` otherwise. -/
def nodeString : Node → Option String
  | .text s => some s
  | .elem _ _ [c] => nodeString c
  | .elem _ _ _ => none

/-- bs4 `get_text()` with default separator and no stripping: the raw
concatenation of all descendant strings. -/
def getTextRaw (n : Node) : String :=
  ⟨(nodeTexts n).map String.data |>.flatten⟩

/-- bs4 `get_text(strip=True)`: each descendant string stripped, empty
results dropped, concatenated with the empty separator. -/
def getTextStrip (n : Node) : String :=
  ⟨joinSep [] (((nodeTexts n).map (fun s => pyStripCore s.data)).filter (fun w => w ≠ []))⟩

/-- bs4 `get_text(separator="\n", strip=True)`: stripped non-empty
descendant strings joined by newlines. -/
def getTextNlStrip (n : Node) : String :=
  ⟨joinSep ['\n'] (((nodeTexts n).map (fun s => pyStripCore s.data)).filter (fun w => w ≠ []))⟩

/-! ## `ContentExtractor` -/

/-- Tag names whose entire subtrees are boilerplate. -/
def BOILERPLATE_TAGS : List String :=
  ["nav", "footer", "aside", "script", "style"]

/-- Tag name accessor. -/
def Node.tag : Node → String
  | .text _ => ""
  | .elem t _ _ => t

/-- Attributes accessor. -/
def Node.attrs : Node → List (String × String)
  | .text _ => []
  | .elem _ a _ => a

/-- The `og:title` fallback of `extract_title`. -/
def extract_title_og (soup : Node) : String :=
  match findIn (fun t a => t = "meta" && attrGet "property" a = some "og:title") soup with
  | some og =>
    match attrGet "content" og.attrs with
    | some c => if c ≠ "" then pyStrip c else "Untitled"
    | none => "Untitled"
  | none => "Untitled"

/-- The `<h1>` fallback of `extract_title`. -/
def extract_title_h1 (soup : Node) : String :=
  match findIn (fun t _ => t = "h1") soup with
  | some h1 => getTextStrip h1
  | none => extract_title_og soup

/-- `ContentExtractor.extract_title`: the `<title>` string when the tag
exists and its string is non-`None` and truthy, else the first `<h1>`'s
stripped text when one exists, else the `og:title` meta content when
present and truthy, else `"Untitled"`. -/
def extract_title (soup : Node) : String :=
  match findIn (fun t _ => t = "title") soup with
  | some titleTag =>
    match nodeString titleTag with
    | some s => if s ≠ "" then pyStrip s else extract_title_h1 soup
    | none => extract_title_h1 soup
  | none => extract_title_h1 soup

/-- Matcher for the compiled pattern `a.*b` under `re.search` semantics:
some occurrence of `a` followed (disjointly) by an occurrence of `b`. -/
def pairSearch (a b : String) (s : String) : Bool :=
  match splitFirstSub a.data s.data with
  | some (_, post) => listContains b.data post
  | none => false

/-- The content-area regex of `extract_main_content`:
`page.*content|main.*content|site.*content|container.*page`,
case-insensitive. -/
def contentClassRegex (s : String) : Bool :=
  pairSearch "page" "content" (pyLower s) || pairSearch "main" "content" (pyLower s) ||
  pairSearch "site" "content" (pyLower s) || pairSearch "container" "page" (pyLower s)

/-- The id regex of `extract_main_content`: `content|main`, case-insensitive. -/
def idRegex (s : String) : Bool :=
  strContains (pyLower s) "content" || strContains (pyLower s) "main"

/-- bs4 regex matching against the multi-valued `class` attribute: the
pattern is tried against each class token and against the tokens joined
by single spaces. -/
def classAttrMatches (regex : String → Bool) (raw : String) : Bool :=
  (pyWords raw).any regex || regex (String.intercalate " " (pyWords raw))

/-- Predicate for `soup.find("div", class_=<content regex>)`. -/
def isContentDiv (t : String) (a : List (String × String)) : Bool :=
  t = "div" &&
    (match attrGet "class" a with
     | some raw => classAttrMatches contentClassRegex raw
     | none => false)

/-- Predicate for `soup.find("div", id=<content|main regex>)`. -/
def isContentIdDiv (t : String) (a : List (String × String)) : Bool :=
  t = "div" &&
    (match attrGet "id" a with
     | some i => idRegex i
     | none => false)

/-- Does the node carry one of the given tag names? -/
def nodeHasBadTag (bad : List String) : Node → Bool
  | .text _ => false
  | .elem t _ _ => bad.contains t

mutual
/-- Remove every element with tag in `bad` from a node's descendants. -/
def decomposeNode (bad : List String) : Node → Node
  | .text s => .text s
  | .elem t a cs => .elem t a (decomposeTags bad cs)
/-- Remove every element whose tag is in `bad` from a forest, recursively
(the effect of decomposing all `find_all(tag)` results). -/
def decomposeTags (bad : List String) : List Node → List Node
  | [] => []
  | n :: ns =>
    if nodeHasBadTag bad n then decomposeTags bad ns
    else decomposeNode bad n :: decomposeTags bad ns
end

/-- Remove direct children with tag in `bad` (the second, `recursive=False`
cleanup pass of `extract_main_content`; a no-op after the first pass). -/
def dropTopLevel (bad : List String) : Node → Node
  | .text s => .text s
  | .elem t a cs =>
    .elem t a (cs.filter (fun c =>
      match c with
      | .text _ => true
      | .elem ct _ _ => !bad.contains ct))

/-- `ContentExtractor.extract_main_content`: locate `<main>`, else a
`<div>` with a content-area class, else a `<div>` with a `content|main`
id, else `<body>`, else the whole soup, then remove boilerplate subtrees
and boilerplate direct children. -/
def extract_main_content (soup : Node) : Node :=
  let located :=
    match findIn (fun t _ => t = "main") soup with
    | some m => m
    | none =>
      match findIn isContentDiv soup with
      | some m => m
      | none =>
        match findIn isContentIdDiv soup with
        | some m => m
        | none =>
          match findIn (fun t _ => t = "body") soup with
          | some m => m
          | none => soup
  let cleaned :=
    match located with
    | .text s => Node.text s
    | .elem t a cs => Node.elem t a (decomposeTags BOILERPLATE_TAGS cs)
  dropTopLevel ["nav", "footer", "aside"] cleaned

/-- `ContentExtractor.clean_text`: collapse every whitespace run to a
single space, then strip.  The source's final substitution of triple
newlines is a no-op because the collapse has already removed every
newline (`clean_text_no_newline` below), so it is not represented. -/
def collapseWsCore : List Char → List Char
  | [] => []
  | c :: l =>
    if pyIsSpace c then
      match l with
      | d :: _ => if pyIsSpace d then collapseWsCore l else ' ' :: collapseWsCore l
      | [] => [' ']
    else c :: collapseWsCore l

/-- `ContentExtractor.clean_text` on strings. -/
def clean_text (s : String) : String :=
  ⟨pyStripCore (collapseWsCore s.data)⟩

/-- Result record of `ContentExtractor.extract_and_clean`. -/
structure Extracted where
  title : String
  body_text : String
  paragraph_count : Nat
  has_code_blocks : Bool
  link_density : ℚ
deriving DecidableEq

/-- Total length of the anchor text of `main_content`: the raw `get_text()`
of every descendant `<a>`, joined by single spaces. -/
def linkTextLen (main : Node) : Nat :=
  (String.intercalate " " ((findAllIn (fun t _ => t = "a") main).map getTextRaw)).length

/-- The cleaned body text of `main_content`. -/
def bodyTextOf (main : Node) : String :=
  clean_text (getTextNlStrip main)

/-- `ContentExtractor.extract_and_clean`, given the already-parsed soup
(the `BeautifulSoup(html, "html.parser")` call is the external parser). -/
def extract_and_clean (soup : Node) : Extracted :=
  let title := extract_title soup
  let main_content := extract_main_content soup
  let body_text := bodyTextOf main_content
  let paragraph_count :=
    ((splitOnSub ['\n', '\n'] body_text.data).filter (fun p => pyStripCore p ≠ [])).length
  let has_code_blocks :=
    (findIn (fun t _ => t = "code") main_content).isSome ||
    (findIn (fun t _ => t = "pre") main_content).isSome ||
    strContains body_text "```"
  let link_density := (linkTextLen main_content : ℚ) / ((max body_text.length 1 : Nat) : ℚ)
  ⟨title, body_text, paragraph_count, has_code_blocks, link_density⟩

/-! ## `ContentEnricher` -/

/-- Document record produced by the pipeline (`AIDocument`).  The two float
fields are modelled as rationals. -/
structure AIDocument where
  url : String
  title : String
  body_text : String
  fetched_at : String
  content_type : String
  word_count : Nat
  char_count : Nat
  language : String
  estimated_read_time_minutes : ℚ
  has_code_blocks : Bool
  link_density : ℚ
  paragraph_count : Nat
  http_status : Nat
  crawl_depth : Nat
deriving DecidableEq

/-- Python `round(x, d)` modelled by exact rational rounding to `d`
decimal digits (ties, which Python resolves half-to-even on binary
floats, do not arise in any statement below). -/
def roundTo (d : Nat) (q : ℚ) : ℚ :=
  (round (q * (10 ^ d : ℚ)) : ℤ) / (10 ^ d : ℚ)

/-- `ContentEnricher.detect_language`: `"unknown"` for text under 50
characters, else the detector's answer, `"unknown"` on detector failure.
The detector itself (`langdetect.detect`) is an oracle. -/
def detect_language (detector : String → Option String) (text : String) : String :=
  if text.length < 50 then "unknown"
  else
    match detector text with
    | some lang => lang
    | none => "unknown"

/-- `ContentEnricher.classify_content_type`: ordered first-match rules on
the lower-cased URL and title, the link density and the body length. -/
def classify_content_type (url title body_text : String) (link_density : ℚ) : String :=
  let url_lower := pyLower url
  let title_lower := pyLower title
  if strContains url_lower "/docs/" || strContains url_lower "/documentation/" then "doc_page"
  else if strContains url_lower "/blog/" || strContains url_lower "/article/" ||
      strContains url_lower "/post/" then "article"
  else if strContains url_lower "/product/" || strContains url_lower "catalogue" then "product_page"
  else if (3 : ℚ) / 10 < link_density then "list_page"
  else if 1500 < body_text.length &&
      (["tutorial", "guide", "how to"].any (fun w => strContains title_lower w)) then "tutorial"
  else "article"

/-- `ContentEnricher.WORDS_PER_MINUTE`. -/
def WORDS_PER_MINUTE : Nat := 200

/-- `ContentEnricher.enrich`: assemble the document.  The language
detector and the `fetched_at` timestamp come from outside. -/
def enrich (detector : String → Option String) (now : String) (extracted : Extracted)
    (url : String) (http_status : Nat) (crawl_depth : Nat) : AIDocument :=
  let body_text := extracted.body_text
  let char_count := body_text.length
  let word_count := (pyWords body_text).length
  let language := detect_language detector body_text
  let estimated_read_time_minutes := (word_count : ℚ) / (WORDS_PER_MINUTE : ℚ)
  let content_type := classify_content_type url extracted.title body_text extracted.link_density
  { url := url
    title := extracted.title
    body_text := body_text
    fetched_at := now
    content_type := content_type
    word_count := word_count
    char_count := char_count
    language := language
    estimated_read_time_minutes := roundTo 2 estimated_read_time_minutes
    has_code_blocks := extracted.has_code_blocks
    link_density := roundTo 3 extracted.link_density
    paragraph_count := extracted.paragraph_count
    http_status := http_status
    crawl_depth := crawl_depth }

/-! ## `WebCrawler`: fetch classification and the crawl loop

The network, the HTML parser, `urljoin` resolution of anchor hrefs, the
language detector and the clock are oracles collected in a `World`.  The
loop is fuel-indexed and also returns the trace of observable events so
that ordering claims (politeness delays) can be stated. -/

/-- Outcome of `requests.Session.get`: a response with body text and
status code, a timeout, or any other transport failure. -/
inductive HttpResponse where
  | ok (text : String) (status : Nat) : HttpResponse
  | timeout : HttpResponse
  | netError : HttpResponse

/-- The crawler's environment. `parse` returning `none` models an
exception thrown while parsing/processing a fetched page (caught by the
orchestrator's `try`/`except`); `absLinks html base` gives the
`urljoin`-resolved `href` of every `<a href=...>` of the page, in
document order, or `none` when one of the `urljoin` calls raises (as
CPython's does, e.g. `ValueError: Invalid IPv6 URL` for href
`http://[`), in which case `extract_links` returns nothing at all. -/
structure World where
  fetch : String → HttpResponse
  parse : String → Option Node
  absLinks : String → String → Option (List String)
  detect : String → Option String
  clock : Nat → String

/-- Crawler configuration (the politeness delay and timeout do not appear:
the delay is recorded as an event and the timeout is resolved by the
fetch oracle). -/
structure Config where
  start_url : String
  max_pages : Nat
  max_depth : Nat

/-- `WebCrawler.fetch_page`: classify one fetch outcome into an optional
`(text, status)` result plus the increment applied to the `errors` stat.
Status at least 400, a timeout or a transport error yield no result and
one error; otherwise body and status are returned unchanged. -/
def fetch_page (r : HttpResponse) : Option (String × Nat) × Nat :=
  match r with
  | .ok text status => if 400 ≤ status then (none, 1) else (some (text, status), 0)
  | .timeout => (none, 1)
  | .netError => (none, 1)

/-- `WebCrawler.extract_links`: resolve each anchor href against the base
URL (oracle), normalize it, and keep it when eligible; when a `urljoin`
call raises, the exception propagates and no link list is returned. -/
def extract_links (w : World) (allowed_domain : String) (html base : String) :
    Option (List String) :=
  (w.absLinks html base).map
    (fun hrefs => (hrefs.map normalize_url).filter (is_valid_url allowed_domain))

/-- Mutable crawl state owned by the orchestrator. -/
structure CrawlState where
  visited : List String
  queue : List (String × Nat)
  documents : List AIDocument
  pages_crawled : Nat
  pages_skipped : Nat
  errors : Nat
deriving DecidableEq

/-- Initial crawl state built by `WebCrawler.__init__`: the seed URL is
enqueued exactly as given, at depth 0, with nothing visited. -/
def initState (start_url : String) : CrawlState :=
  ⟨[], [(start_url, 0)], [], 0, 0, 0⟩

/-- Observable events of one crawl run, in order. -/
inductive Event where
  | visitedSkip (url : String) : Event
  | depthSkip (url : String) : Event
  | fetchFail (url : String) : Event
  | fetchOk (url : String) (status : Nat) : Event
  | extractFail (url : String) : Event
  | thinSkip (url : String) : Event
  | emit (url : String) : Event
  | linkExtractFail (url : String) : Event
  | sleep : Event
deriving DecidableEq

/-- One iteration of the `while` body of `WebCrawler.crawl`, for the
dequeued entry `(url, depth)` and remaining queue `rest`: skip
already-visited entries, skip entries beyond the depth budget, otherwise
mark visited and fetch; on fetch success extract, drop thin pages,
otherwise enrich, append the document, and — when the depth budget
allows — run `extract_links` and enqueue the eligible not-yet-visited
links at `depth + 1`.  The `try` block spans from extraction to link
enqueueing, so an exception raised by `extract_links` *after* the append
is caught by the same `except`: the document stays collected, `errors`
is incremented, nothing is enqueued, and the iteration leaves via
`continue`.  `time.sleep` (the `sleep` event) sits after the
`try`/`except`, so it runs only when the whole block completed: every
skip, failure, and the post-append link-extraction error reach the next
iteration via `continue` and skip it. -/
def crawlStep (w : World) (cfg : Config) (allowed_domain : String)
    (url : String) (depth : Nat) (rest : List (String × Nat)) (s : CrawlState) :
    CrawlState × List Event :=
  if url ∈ s.visited then
    ({ s with queue := rest }, [.visitedSkip url])
  else if cfg.max_depth < depth then
    ({ s with queue := rest, pages_skipped := s.pages_skipped + 1 }, [.depthSkip url])
  else
    let s1 := { s with visited := url :: s.visited, queue := rest }
    match fetch_page (w.fetch url) with
    | (none, e) => ({ s1 with errors := s1.errors + e }, [.fetchFail url])
    | (some (html, status), _) =>
      match w.parse html with
      | none => ({ s1 with errors := s1.errors + 1 }, [.fetchOk url status, .extractFail url])
      | some soup =>
        let extracted := extract_and_clean soup
        if extracted.body_text.length < 100 then
          ({ s1 with pages_skipped := s1.pages_skipped + 1 },
           [.fetchOk url status, .thinSkip url])
        else
          let doc := enrich w.detect (w.clock s1.documents.length) extracted url status depth
          let s2 := { s1 with
            documents := s1.documents ++ [doc],
            pages_crawled := s1.pages_crawled + 1 }
          if depth < cfg.max_depth then
            match extract_links w allowed_domain html url with
            | none =>
              ({ s2 with errors := s2.errors + 1 },
               [.fetchOk url status, .emit url, .linkExtractFail url])
            | some links =>
              ({ s2 with queue := s2.queue ++
                  (links.filter (fun l => l ∉ s2.visited)).map (fun l => (l, depth + 1)) },
               [.fetchOk url status, .emit url, .sleep])
          else (s2, [.fetchOk url status, .emit url, .sleep])

/-- The `while` loop of `WebCrawler.crawl`, fuel-indexed: loop while the
frontier is non-empty and fewer than `max_pages` documents are collected. -/
def crawlLoop (w : World) (cfg : Config) (allowed_domain : String) :
    Nat → CrawlState → CrawlState × List Event
  | 0, s => (s, [])
  | fuel + 1, s =>
    match s.queue with
    | [] => (s, [])
    | (url, depth) :: rest =>
      if s.documents.length < cfg.max_pages then
        let r1 := crawlStep w cfg allowed_domain url depth rest s
        let r2 := crawlLoop w cfg allowed_domain fuel r1.1
        (r2.1, r1.2 ++ r2.2)
      else (s, [])

/-- `WebCrawler.crawl`: run the loop from the initial state; the allowed
domain is the seed URL's netloc, fixed at construction time. -/
def crawl (w : World) (cfg : Config) (fuel : Nat) : CrawlState × List Event :=
  crawlLoop w cfg (⟨(urlparse cfg.start_url).netloc⟩ : String) fuel (initState cfg.start_url)

/-- URLs passed to `fetch_page` during a run, in order (both failed and
successful fetches). -/
def fetchedUrls : List Event → List String
  | [] => []
  | .fetchFail u :: evs => u :: fetchedUrls evs
  | .fetchOk u _ :: evs => u :: fetchedUrls evs
  | _ :: evs => fetchedUrls evs

/-- Number of `sleep` events in a trace. -/
def countSleeps : List Event → Nat
  | [] => 0
  | .sleep :: evs => countSleeps evs + 1
  | _ :: evs => countSleeps evs

/-- Number of `emit` events in a trace. -/
def countEmits : List Event → Nat
  | [] => 0
  | .emit _ :: evs => countEmits evs + 1
  | _ :: evs => countEmits evs

/-- Number of successful-fetch events in a trace. -/
def countFetchOks : List Event → Nat
  | [] => 0
  | .fetchOk _ _ :: evs => countFetchOks evs + 1
  | _ :: evs => countFetchOks evs

/-- Number of post-append link-extraction failures in a trace: iterations
whose document was already collected when `extract_links` raised. -/
def countLinkFails : List Event → Nat
  | [] => 0
  | .linkExtractFail _ :: evs => countLinkFails evs + 1
  | _ :: evs => countLinkFails evs

/-! ## Concrete worlds used by counterexamples and witnesses -/

/-- A page whose body text is exactly 100 characters. -/
def soupThick : Node :=
  .elem "[document]" [] [.elem "body" [] [.text ⟨List.replicate 100 'a'⟩]]

/-- A page whose body text is under 100 characters. -/
def soupThin : Node :=
  .elem "[document]" [] [.elem "body" [] [.text "short"]]

/-- World for claim C2: the seed page links back to the seed itself. -/
def wC2 : World :=
  { fetch := fun u => if u = "https://x.com/a/b/" then .ok "page1" 200 else .netError
    parse := fun h => if h = "page1" then some soupThick else none
    absLinks := fun h _ => if h = "page1" then some ["https://x.com/a/b/"] else some []
    detect := fun _ => some "en"
    clock := fun _ => "t" }

/-- Configuration for claim C2: seed with a trailing slash. -/
def cfgC2 : Config := ⟨"https://x.com/a/b/", 10, 3⟩

/-- World for claims C3 and C4: every page is thin. -/
def wC3 : World :=
  { fetch := fun _ => .ok "p" 200
    parse := fun _ => some soupThin
    absLinks := fun _ _ => some []
    detect := fun _ => none
    clock := fun _ => "t" }

/-- Configuration for claims C3 and C4. -/
def cfgC3 : Config := ⟨"https://x.com/p", 10, 3⟩

/-- World for the C4 post-append path: the seed serves a thick page, but
one of its hrefs (e.g. `http://[`) makes `urljoin` raise inside
`extract_links`, after the document append. -/
def wC4 : World :=
  { fetch := fun u => if u = "https://x.com/p" then .ok "page1" 200 else .netError
    parse := fun h => if h = "page1" then some soupThick else none
    absLinks := fun h _ => if h = "page1" then none else some []
    detect := fun _ => some "en"
    clock := fun _ => "t" }

/-- Configuration for the C4 post-append path. -/
def cfgC4 : Config := ⟨"https://x.com/p", 10, 3⟩

/-- World for claim C9: the only fetch fails at transport level. -/
def wC9 : World :=
  { fetch := fun _ => .netError
    parse := fun _ => none
    absLinks := fun _ _ => some []
    detect := fun _ => none
    clock := fun _ => "t" }

/-- Configuration for claim C9. -/
def cfgC9 : Config := ⟨"https://x.com/p", 10, 3⟩

/-- World for claim C10: the seed, a blocked URL, serves a thick page. -/
def wC10 : World :=
  { fetch := fun u => if u = "https://x.com/login/" then .ok "page1" 200 else .netError
    parse := fun h => if h = "page1" then some soupThick else none
    absLinks := fun _ _ => some []
    detect := fun _ => some "en"
    clock := fun _ => "t" }

/-- Configuration for claim C10: a seed URL containing the `/login` block
pattern and differing from its normalized form. -/
def cfgC10 : Config := ⟨"https://x.com/login/", 10, 3⟩

/-- A page whose `<title>` is whitespace-only while an `<h1>` has text. -/
def soupC7 : Node :=
  .elem "[document]" [] [.elem "html" [] [
    .elem "head" [] [.elem "title" [] [.text "   "]],
    .elem "body" [] [.elem "h1" [] [.text "Hello"]]]]

/-- A page with a normal title, for the C7 witness. -/
def soupC7w : Node :=
  .elem "[document]" [] [.elem "html" [] [
    .elem "head" [] [.elem "title" [] [.text " X "]],
    .elem "body" [] []]]

/-- A page with no title, h1 or og:title, for the C7 witness. -/
def soupC7u : Node :=
  .elem "[document]" [] [.elem "html" [] [.elem "body" [] [.elem "p" [] [.text "hi"]]]]

/-- The C8 page: one anchor whose raw text contains a long whitespace run
that the body-text cleaning collapses, so anchor text outweighs body. -/
def soupC8 : Node :=
  .elem "[document]" [] [.elem "html" [] [.elem "body" [] [
    .elem "a" [("href", "/x")]
      [.text ⟨List.replicate 100 'a' ++ List.replicate 100 ' ' ++ ['b']⟩]]]]

/-- World for claim C8: the seed serves the dense-anchor page. -/
def wC8 : World :=
  { fetch := fun u => if u = "https://x.com/p" then .ok "page1" 200 else .netError
    parse := fun h => if h = "page1" then some soupC8 else none
    absLinks := fun _ _ => some []
    detect := fun _ => some "en"
    clock := fun _ => "t" }

/-- Configuration for claim C8. -/
def cfgC8 : Config := ⟨"https://x.com/p", 10, 3⟩

/-! ## Trace bookkeeping lemmas -/

theorem fetchedUrls_append (a b : List Event) :
    fetchedUrls (a ++ b) = fetchedUrls a ++ fetchedUrls b := by
  induction a with
  | nil => rfl
  | cons e evs ih => cases e <;> simp [fetchedUrls, ih]

theorem countSleeps_append (a b : List Event) :
    countSleeps (a ++ b) = countSleeps a + countSleeps b := by
  induction a with
  | nil => simp [countSleeps]
  | cons e evs ih => cases e <;> simp [countSleeps, ih] <;> omega

theorem countEmits_append (a b : List Event) :
    countEmits (a ++ b) = countEmits a + countEmits b := by
  induction a with
  | nil => simp [countEmits]
  | cons e evs ih => cases e <;> simp [countEmits, ih] <;> omega

theorem countFetchOks_append (a b : List Event) :
    countFetchOks (a ++ b) = countFetchOks a + countFetchOks b := by
  induction a with
  | nil => simp [countFetchOks]
  | cons e evs ih => cases e <;> simp [countFetchOks, ih] <;> omega

theorem countLinkFails_append (a b : List Event) :
    countLinkFails (a ++ b) = countLinkFails a + countLinkFails b := by
  induction a with
  | nil => simp [countLinkFails]
  | cons e evs ih => cases e <;> simp [countLinkFails, ih] <;> omega

/-! ## Step characterization lemmas -/

/-- Documents never shrink in one step, and a step appends at most one
document, which records the entry's depth (within budget) and carries at
least 100 characters of body text. -/
theorem crawlStep_documents (w : World) (cfg : Config) (ad url : String) (depth : Nat)
    (rest : List (String × Nat)) (s : CrawlState) :
    (crawlStep w cfg ad url depth rest s).1.documents = s.documents ∨
    (depth ≤ cfg.max_depth ∧ ∃ doc,
      (crawlStep w cfg ad url depth rest s).1.documents = s.documents ++ [doc] ∧
      doc.crawl_depth = depth ∧ 100 ≤ doc.body_text.length) := by
  unfold crawlStep
  by_cases h1 : url ∈ s.visited
  · simp [h1]
  · by_cases h2 : cfg.max_depth < depth
    · simp [h1, h2]
    · simp only [if_neg h1, if_neg h2]
      rcases hf : fetch_page (w.fetch url) with ⟨o, e⟩
      cases o with
      | none => simp
      | some pr =>
        obtain ⟨html, status⟩ := pr
        cases hp : w.parse html with
        | none => simp [hp]
        | some soup =>
          simp only [hp]
          by_cases h3 : (extract_and_clean soup).body_text.length < 100
          · simp [h3]
          · right
            refine ⟨Nat.le_of_not_lt h2,
              enrich w.detect (w.clock s.documents.length) (extract_and_clean soup) url status depth,
              ?_, rfl, ?_⟩
            · by_cases h4 : depth < cfg.max_depth
              · cases hl : extract_links w ad html url <;> simp [h3, h4, hl, enrich]
              · simp [h3, h4, enrich]
            · have : (enrich w.detect (w.clock s.documents.length) (extract_and_clean soup)
                  url status depth).body_text = (extract_and_clean soup).body_text := rfl
              rw [this]
              omega

/-- A step either performs no fetch and leaves the visited set unchanged,
or fetches exactly the dequeued URL, which was unvisited and becomes
visited. -/
theorem crawlStep_fetched (w : World) (cfg : Config) (ad url : String) (depth : Nat)
    (rest : List (String × Nat)) (s : CrawlState) :
    (fetchedUrls (crawlStep w cfg ad url depth rest s).2 = [] ∧
      (crawlStep w cfg ad url depth rest s).1.visited = s.visited) ∨
    (fetchedUrls (crawlStep w cfg ad url depth rest s).2 = [url] ∧ url ∉ s.visited ∧
      (crawlStep w cfg ad url depth rest s).1.visited = url :: s.visited) := by
  unfold crawlStep
  by_cases h1 : url ∈ s.visited
  · simp [h1, fetchedUrls]
  · by_cases h2 : cfg.max_depth < depth
    · simp [h1, h2, fetchedUrls]
    · simp only [if_neg h1, if_neg h2]
      rcases hf : fetch_page (w.fetch url) with ⟨o, e⟩
      cases o with
      | none => simp [h1, fetchedUrls]
      | some pr =>
        obtain ⟨html, status⟩ := pr
        cases hp : w.parse html with
        | none => simp [hp, h1, fetchedUrls]
        | some soup =>
          simp only [hp]
          by_cases h3 : (extract_and_clean soup).body_text.length < 100
          · simp [h3, h1, fetchedUrls]
          · by_cases h4 : depth < cfg.max_depth
            · cases hl : extract_links w ad html url <;> simp [h3, h4, hl, h1, fetchedUrls]
            · simp [h3, h4, h1, fetchedUrls]

/-- A step emits at most once; an emitting step either sleeps or records
a post-append link-extraction failure (never both), a non-emitting step
does neither, and the document count grows by exactly the number of
emissions. -/
theorem crawlStep_sleeps (w : World) (cfg : Config) (ad url : String) (depth : Nat)
    (rest : List (String × Nat)) (s : CrawlState) :
    countSleeps (crawlStep w cfg ad url depth rest s).2 +
        countLinkFails (crawlStep w cfg ad url depth rest s).2 =
      countEmits (crawlStep w cfg ad url depth rest s).2 ∧
    (crawlStep w cfg ad url depth rest s).1.documents.length =
      s.documents.length + countEmits (crawlStep w cfg ad url depth rest s).2 := by
  unfold crawlStep
  by_cases h1 : url ∈ s.visited
  · simp [h1, countSleeps, countEmits, countLinkFails]
  · by_cases h2 : cfg.max_depth < depth
    · simp [h1, h2, countSleeps, countEmits, countLinkFails]
    · simp only [if_neg h1, if_neg h2]
      rcases hf : fetch_page (w.fetch url) with ⟨o, e⟩
      cases o with
      | none => simp [countSleeps, countEmits, countLinkFails]
      | some pr =>
        obtain ⟨html, status⟩ := pr
        cases hp : w.parse html with
        | none => simp [hp, countSleeps, countEmits, countLinkFails]
        | some soup =>
          simp only [hp]
          by_cases h3 : (extract_and_clean soup).body_text.length < 100
          · simp [h3, countSleeps, countEmits, countLinkFails]
          · by_cases h4 : depth < cfg.max_depth
            · cases hl : extract_links w ad html url <;>
                simp [h3, h4, hl, countSleeps, countEmits, countLinkFails]
            · simp [h3, h4, countSleeps, countEmits, countLinkFails]

/-! ## Loop invariants -/

/-- The budget/depth/thin-content invariant of the crawl loop: the
document count never exceeds `max_pages`, and every collected document
has depth within `max_depth` and at least 100 characters of body. -/
theorem crawlLoop_docs_inv (w : World) (cfg : Config) (ad : String) :
    ∀ (fuel : Nat) (s : CrawlState),
      s.documents.length ≤ cfg.max_pages →
      (∀ d ∈ s.documents, d.crawl_depth ≤ cfg.max_depth ∧ 100 ≤ d.body_text.length) →
      (crawlLoop w cfg ad fuel s).1.documents.length ≤ cfg.max_pages ∧
      ∀ d ∈ (crawlLoop w cfg ad fuel s).1.documents,
        d.crawl_depth ≤ cfg.max_depth ∧ 100 ≤ d.body_text.length := by
  intro fuel
  induction fuel with
  | zero => intro s h1 h2; exact ⟨h1, h2⟩
  | succ fuel ih =>
    intro s h1 h2
    simp only [crawlLoop]
    cases hq : s.queue with
    | nil => exact ⟨h1, h2⟩
    | cons hd tl =>
      obtain ⟨url, depth⟩ := hd
      by_cases hlt : s.documents.length < cfg.max_pages
      · simp only [if_pos hlt]
        apply ih
        · rcases crawlStep_documents w cfg ad url depth tl s with h | ⟨-, doc, heq, -, -⟩
          · rw [h]; omega
          · rw [heq]; simp only [List.length_append, List.length_cons, List.length_nil]; omega
        · rcases crawlStep_documents w cfg ad url depth tl s with h | ⟨hdep, doc, heq, hcd, hbl⟩
          · rw [h]; exact h2
          · rw [heq]
            intro d hd3
            rcases List.mem_append.mp hd3 with h5 | h5
            · exact h2 d h5
            · rw [List.mem_singleton.mp h5]
              exact ⟨hcd ▸ hdep, hbl⟩
      · simp only [if_neg hlt]; exact ⟨h1, h2⟩

/-- Exactly-once fetching at the level of URL strings: the URLs passed to
`fetch_page` in a run are pairwise distinct and none was visited at the
start. -/
theorem crawlLoop_fetched_inv (w : World) (cfg : Config) (ad : String) :
    ∀ (fuel : Nat) (s : CrawlState),
      (∀ u ∈ fetchedUrls (crawlLoop w cfg ad fuel s).2, u ∉ s.visited) ∧
      (fetchedUrls (crawlLoop w cfg ad fuel s).2).Nodup := by
  intro fuel
  induction fuel with
  | zero => intro s; simp [crawlLoop, fetchedUrls]
  | succ fuel ih =>
    intro s
    simp only [crawlLoop]
    cases hq : s.queue with
    | nil => simp [fetchedUrls]
    | cons hd tl =>
      obtain ⟨url, depth⟩ := hd
      by_cases hlt : s.documents.length < cfg.max_pages
      · simp only [if_pos hlt, fetchedUrls_append]
        rcases crawlStep_fetched w cfg ad url depth tl s with ⟨he, hv⟩ | ⟨he, hnv, hv⟩
        · rw [he]
          simp only [List.nil_append]
          constructor
          · intro u hu
            rw [← hv]
            exact (ih (crawlStep w cfg ad url depth tl s).1).1 u hu
          · exact (ih (crawlStep w cfg ad url depth tl s).1).2
        · rw [he]
          have hrest := ih (crawlStep w cfg ad url depth tl s).1
          constructor
          · intro u hu
            rcases List.mem_cons.mp hu with h5 | h5
            · rw [h5]; exact hnv
            · intro hmem
              exact hrest.1 u h5 (hv ▸ List.mem_cons_of_mem url hmem)
          · refine List.nodup_cons.mpr ⟨?_, hrest.2⟩
            intro hmem
            exact hrest.1 url hmem (hv ▸ List.mem_cons_self url s.visited)
      · simp [if_neg hlt, fetchedUrls]

/-- The politeness delay is applied once per emitted document except for
the emissions whose post-append link extraction raised: on every trace,
sleeps plus link-extraction failures equal emissions, and emissions
count the documents appended during the run. -/
theorem crawlLoop_sleeps_inv (w : World) (cfg : Config) (ad : String) :
    ∀ (fuel : Nat) (s : CrawlState),
      countSleeps (crawlLoop w cfg ad fuel s).2 +
          countLinkFails (crawlLoop w cfg ad fuel s).2 =
        countEmits (crawlLoop w cfg ad fuel s).2 ∧
      (crawlLoop w cfg ad fuel s).1.documents.length =
        s.documents.length + countEmits (crawlLoop w cfg ad fuel s).2 := by
  intro fuel
  induction fuel with
  | zero => intro s; simp [crawlLoop, countSleeps, countEmits, countLinkFails]
  | succ fuel ih =>
    intro s
    simp only [crawlLoop]
    cases hq : s.queue with
    | nil => simp [countSleeps, countEmits, countLinkFails]
    | cons hd tl =>
      obtain ⟨url, depth⟩ := hd
      by_cases hlt : s.documents.length < cfg.max_pages
      · simp only [if_pos hlt, countSleeps_append, countEmits_append, countLinkFails_append]
        have hstep := crawlStep_sleeps w cfg ad url depth tl s
        have hrest := ih (crawlStep w cfg ad url depth tl s).1
        exact ⟨by omega, by omega⟩
      · simp [if_neg hlt, countSleeps, countEmits, countLinkFails]



/-! ## Claim theorems -/

/-- C1: for every run of the crawl loop, the number of emitted documents
never exceeds `max_pages`, and every document appended to the collection
has `crawl_depth ≤ max_depth`. -/
theorem C1_budget_enforcement (w : World) (cfg : Config) (fuel : Nat) :
    (crawl w cfg fuel).1.documents.length ≤ cfg.max_pages ∧
    ∀ d ∈ (crawl w cfg fuel).1.documents, d.crawl_depth ≤ cfg.max_depth := by
  have h := crawlLoop_docs_inv w cfg (⟨(urlparse cfg.start_url).netloc⟩ : String) fuel
    (initState cfg.start_url) (by simp [initState]) (by simp [initState])
  exact ⟨h.1, fun d hd => (h.2 d hd).1⟩

/-- C2 counterexample: the crawler can fetch the same normalized URL
twice.  The seed is enqueued and recorded in the visited set exactly as
given, while rediscovered links are normalized, so a seed that differs
from its own normalized form is fetched once as given and once in
normalized form — two fetches of the same normalized URL. -/
theorem C2_normalized_refetch_counterexample :
    normalize_url "https://x.com/a/b/" = normalize_url "https://x.com/a/b" ∧
    fetchedUrls (crawl wC2 cfgC2 5).2 = ["https://x.com/a/b/", "https://x.com/a/b"] := by
  constructor
  · decide
  · decide

/-- C2 amended: exactly-once fetching holds at the level of exact URL
strings — the URLs passed to `fetch_page` in any run are pairwise
distinct (but two distinct fetched strings may share a normalized form,
as the counterexample shows). -/
theorem C2_fetched_urls_nodup (w : World) (cfg : Config) (fuel : Nat) :
    (fetchedUrls (crawl w cfg fuel).2).Nodup :=
  (crawlLoop_fetched_inv w cfg (⟨(urlparse cfg.start_url).netloc⟩ : String) fuel
    (initState cfg.start_url)).2

/-- C3: a fetched page whose cleaned body text is under 100 characters
produces no document, enqueues none of its links (the queue becomes
exactly the remaining frontier), and increments `pages_skipped`;
conversely every document of any run has at least 100 characters of body
text. -/
theorem C3_thin_content_exclusion (w : World) (cfg : Config) :
    (∀ (ad url : String) (depth : Nat) (rest : List (String × Nat)) (s : CrawlState)
        (html : String) (status : Nat) (soup : Node),
      url ∉ s.visited → depth ≤ cfg.max_depth →
      w.fetch url = .ok html status → status < 400 →
      w.parse html = some soup →
      (extract_and_clean soup).body_text.length < 100 →
      crawlStep w cfg ad url depth rest s =
        ({ s with visited := url :: s.visited
                  queue := rest
                  pages_skipped := s.pages_skipped + 1 },
         [.fetchOk url status, .thinSkip url])) ∧
    ∀ fuel : Nat,
      List.Forall (fun d => 100 ≤ d.body_text.length) (crawl w cfg fuel).1.documents := by
  constructor
  · intro ad url depth rest s html status soup hvis hdep hfetch hst hparse hthin
    unfold crawlStep
    rw [if_neg hvis, if_neg (Nat.not_lt.mpr hdep), hfetch]
    simp only [fetch_page, if_neg (Nat.not_le.mpr hst), hparse, if_pos hthin]
  · intro fuel
    rw [List.forall_iff_forall_mem]
    intro d hd
    exact ((crawlLoop_docs_inv w cfg (⟨(urlparse cfg.start_url).netloc⟩ : String) fuel
      (initState cfg.start_url) (by simp [initState]) (by simp [initState])).2 d hd).2

/-- Witness for C3 at a concrete thin page. -/
theorem C3_thin_content_exclusion_witness :
    crawlStep wC3 cfgC3 "x.com" "https://x.com/p" 0 [] (initState "https://x.com/p") =
      ({ (initState "https://x.com/p") with
          visited := ["https://x.com/p"]
          queue := []
          pages_skipped := 1 },
       [.fetchOk "https://x.com/p" 200, .thinSkip "https://x.com/p"]) ∧
    List.Forall (fun d => 100 ≤ d.body_text.length) (crawl wC3 cfgC3 3).1.documents :=
  ⟨(C3_thin_content_exclusion wC3 cfgC3).1 "x.com" "https://x.com/p" 0 []
      (initState "https://x.com/p") "p" 200 soupThin (by decide) (by decide) rfl
      (by decide) rfl (by decide),
   (C3_thin_content_exclusion wC3 cfgC3).2 3⟩

/-- C4 counterexample: sleeping is not tied to successful fetches, nor
even to emissions.  First run: a successfully fetched page skipped for
thin content leaves via `continue`, so one successful fetch and no sleep
at all.  Second run: a page is fetched, extracted and emitted as a
document, but `extract_links` then raises (a `urljoin` exception caught
by the `except` that spans the whole `try` block), so the run collects
one document, increments `errors`, and still never sleeps. -/
theorem C4_sleep_skipped_counterexample :
    ((crawl wC3 cfgC3 3).2 = [.fetchOk "https://x.com/p" 200, .thinSkip "https://x.com/p"] ∧
      countFetchOks (crawl wC3 cfgC3 3).2 = 1 ∧
      countSleeps (crawl wC3 cfgC3 3).2 = 0) ∧
    ((crawl wC4 cfgC4 3).2 =
        [.fetchOk "https://x.com/p" 200, .emit "https://x.com/p",
         .linkExtractFail "https://x.com/p"] ∧
      (crawl wC4 cfgC4 3).1.documents.length = 1 ∧
      (crawl wC4 cfgC4 3).1.errors = 1 ∧
      countEmits (crawl wC4 cfgC4 3).2 = 1 ∧
      countSleeps (crawl wC4 cfgC4 3).2 = 0) := by
  refine ⟨⟨by decide, by decide, by decide⟩, by decide, by decide, by decide, by decide,
    by decide⟩

/-- C4 amended: `time.sleep` runs only when the whole `try` block of an
iteration completes — that is, in the iterations that emit a document
*and* whose subsequent link extraction does not raise.  On every trace,
sleeps plus post-append link-extraction failures equal emissions (so
sleeps never exceed emissions and fall short of them exactly when
`extract_links` raises after the append), and emissions count the
documents collected by the run; iterations that skip for thin content,
fail during extraction, or fail to fetch do not sleep. -/
theorem C4_sleep_per_surviving_emission (w : World) (cfg : Config) (fuel : Nat) :
    countSleeps (crawl w cfg fuel).2 + countLinkFails (crawl w cfg fuel).2 =
      countEmits (crawl w cfg fuel).2 ∧
    countEmits (crawl w cfg fuel).2 = (crawl w cfg fuel).1.documents.length := by
  have hc : crawl w cfg fuel =
      crawlLoop w cfg (⟨(urlparse cfg.start_url).netloc⟩ : String) fuel
        (initState cfg.start_url) := rfl
  rw [hc]
  have h := crawlLoop_sleeps_inv w cfg (⟨(urlparse cfg.start_url).netloc⟩ : String) fuel
    (initState cfg.start_url)
  have h0 : (initState cfg.start_url).documents.length = 0 := rfl
  exact ⟨h.1, by omega⟩

/-- C9: a fetch outcome with status at least 400, a timeout or a
transport failure is classified as a failure carrying one error; a
successful fetch returns the raw body and status; and a failed fetch
step leaves the documents untouched, increments `errors` by exactly one,
and hands the loop the remaining frontier. -/
theorem C9_fetch_failure_classification (w : World) (cfg : Config) :
    (∀ (text : String) (status : Nat), 400 ≤ status →
      fetch_page (.ok text status) = (none, 1)) ∧
    fetch_page .timeout = (none, 1) ∧
    fetch_page .netError = (none, 1) ∧
    (∀ (text : String) (status : Nat), status < 400 →
      fetch_page (.ok text status) = (some (text, status), 0)) ∧
    (∀ (ad url : String) (depth : Nat) (rest : List (String × Nat)) (s : CrawlState),
      url ∉ s.visited → depth ≤ cfg.max_depth →
      (fetch_page (w.fetch url)).1 = none →
      crawlStep w cfg ad url depth rest s =
        ({ s with visited := url :: s.visited, queue := rest, errors := s.errors + 1 },
         [.fetchFail url])) := by
  refine ⟨?_, rfl, rfl, ?_, ?_⟩
  · intro text status h
    simp [fetch_page, h]
  · intro text status h
    simp [fetch_page, Nat.not_le.mpr h]
  · intro ad url depth rest s hvis hdep hfail
    have hone : fetch_page (w.fetch url) = (none, 1) := by
      rcases hr : w.fetch url with ⟨text, status⟩ | - | -
      · rw [hr] at hfail
        by_cases hs : 400 ≤ status
        · simp [fetch_page, hs]
        · simp [fetch_page, hs] at hfail
      · rfl
      · rfl
    unfold crawlStep
    rw [if_neg hvis, if_neg (Nat.not_lt.mpr hdep), hone]

/-- Witness for C9 at concrete outcomes and a concrete failing step. -/
theorem C9_fetch_failure_classification_witness :
    fetch_page (.ok "t" 500) = (none, 1) ∧
    fetch_page (.ok "t" 200) = (some ("t", 200), 0) ∧
    crawlStep wC9 cfgC9 "x.com" "https://x.com/p" 0 [] (initState "https://x.com/p") =
      ({ (initState "https://x.com/p") with
          visited := ["https://x.com/p"]
          queue := []
          errors := 1 },
       [.fetchFail "https://x.com/p"]) :=
  ⟨(C9_fetch_failure_classification wC9 cfgC9).1 "t" 500 (by decide),
   (C9_fetch_failure_classification wC9 cfgC9).2.2.2.1 "t" 200 (by decide),
   (C9_fetch_failure_classification wC9 cfgC9).2.2.2.2 "x.com" "https://x.com/p" 0 []
     (initState "https://x.com/p") (by decide) (by decide) (by decide)⟩

/-- C10: the eligibility filter and normalization are applied only to
discovered links, never to the seed: the seed is enqueued exactly as
given, and a seed containing a block-list substring and differing from
its own normalized form is still fetched as given and yields a document
for the un-normalized blocked URL. -/
theorem C10_seed_bypasses_filter :
    (∀ seed : String, (initState seed).queue = [(seed, 0)]) ∧
    is_valid_url "x.com" "https://x.com/login/" = false ∧
    normalize_url "https://x.com/login/" ≠ "https://x.com/login/" ∧
    fetchedUrls (crawl wC10 cfgC10 3).2 = ["https://x.com/login/"] ∧
    (crawl wC10 cfgC10 3).1.documents.map AIDocument.url = ["https://x.com/login/"] := by
  refine ⟨fun seed => rfl, by decide, by decide, by decide, by decide⟩

/-! ## Claims C7 and C8 -/



/-- C7 counterexample: the `<title>` branch tests Python truthiness of the
raw title string, not non-emptiness of the stripped candidate, so a
whitespace-only `<title>` masks a non-empty `<h1>`: the extracted title
is `""`, not the first non-empty candidate `"Hello"`. -/
theorem C7_whitespace_title_counterexample :
    (findIn (fun t _ => t = "h1") soupC7).map getTextStrip = some "Hello" ∧
    extract_title soupC7 = "" := by
  constructor
  · decide
  · decide

/-- C7 amended: the `<title>` branch wins whenever the title tag exists
with a non-`None`, non-empty raw string (even whitespace-only, in which
case the stripped, possibly empty, string is returned); otherwise the
first `<h1>`'s stripped text whenever an `<h1>` exists; otherwise the
stripped `og:title` content when present and non-empty; otherwise the
literal `"Untitled"`. -/
theorem C7_title_fallback_order (soup : Node) :
    (∀ (tnode : Node) (s : String),
      findIn (fun t _ => t = "title") soup = some tnode →
      nodeString tnode = some s → s ≠ "" →
      extract_title soup = pyStrip s) ∧
    ((findIn (fun t _ => t = "title") soup = none ∨
      (∃ tnode, findIn (fun t _ => t = "title") soup = some tnode ∧
        (nodeString tnode = none ∨ nodeString tnode = some ""))) →
      ((∀ h1node : Node,
        findIn (fun t _ => t = "h1") soup = some h1node →
        extract_title soup = getTextStrip h1node) ∧
      (findIn (fun t _ => t = "h1") soup = none →
        ((∀ (og : Node) (c : String),
          findIn (fun t a => t = "meta" && attrGet "property" a = some "og:title") soup = some og →
          attrGet "content" og.attrs = some c → c ≠ "" →
          extract_title soup = pyStrip c) ∧
        ((findIn (fun t a => t = "meta" && attrGet "property" a = some "og:title") soup = none ∨
          (∃ og, findIn (fun t a => t = "meta" && attrGet "property" a = some "og:title") soup
              = some og ∧
            (attrGet "content" og.attrs = none ∨ attrGet "content" og.attrs = some ""))) →
          extract_title soup = "Untitled"))))) := by
  constructor
  · intro tnode s ht hs hne
    unfold extract_title
    simp [ht, hs, hne]
  · intro htitle
    have hfall : extract_title soup = extract_title_h1 soup := by
      unfold extract_title
      rcases htitle with h | ⟨tnode, ht, hn⟩
      · rw [h]
      · rcases hn with h2 | h2 <;> simp [ht, h2]
    constructor
    · intro h1node hh1
      rw [hfall]
      unfold extract_title_h1
      simp [hh1]
    · intro hh1
      have hfall2 : extract_title soup = extract_title_og soup := by
        rw [hfall]
        unfold extract_title_h1
        rw [hh1]
      constructor
      · intro og c hog hc hne
        rw [hfall2]
        unfold extract_title_og
        simp [hog, hc, hne]
      · intro hogc
        rw [hfall2]
        unfold extract_title_og
        rcases hogc with h | ⟨og, hog, hn⟩
        · rw [h]
        · rcases hn with h2 | h2 <;> simp [hog, h2]

/-- Witness for C7: the title branch on a concrete page with title
`" X "`, and the `"Untitled"` branch on a page with none of the three. -/
theorem C7_title_fallback_order_witness :
    extract_title soupC7w = pyStrip " X " ∧ extract_title soupC7u = "Untitled" :=
  ⟨(C7_title_fallback_order soupC7w).1 (.elem "title" [] [.text " X "]) " X "
      rfl rfl (by decide),
   ((((C7_title_fallback_order soupC7u).2 (Or.inl rfl)).2 rfl).2
      (Or.inl rfl))⟩



/-- C8 amended: `link_density` equals total anchor-text length over the
body-text length floored at 1, it is rounded to 3 decimals on the
document, and it is never negative — but it is not bounded by 1. -/
theorem C8_link_density_formula (soup : Node) (detector : String → Option String)
    (now url : String) (status depth : Nat) :
    (extract_and_clean soup).link_density =
      (linkTextLen (extract_main_content soup) : ℚ) /
        ((max (bodyTextOf (extract_main_content soup)).length 1 : Nat) : ℚ) ∧
    0 ≤ (extract_and_clean soup).link_density ∧
    (enrich detector now (extract_and_clean soup) url status depth).link_density =
      roundTo 3 (extract_and_clean soup).link_density := by
  refine ⟨rfl, ?_, rfl⟩
  have h : (extract_and_clean soup).link_density =
      (linkTextLen (extract_main_content soup) : ℚ) /
        ((max (bodyTextOf (extract_main_content soup)).length 1 : Nat) : ℚ) := rfl
  rw [h]
  positivity

set_option maxRecDepth 200000 in
/-- C8 counterexample: a run emitting a document whose `link_density`
exceeds 1 — the anchor text is measured raw (201 characters) while the
cleaned body text is whitespace-collapsed (102 characters). -/
theorem C8_link_density_above_one :
    (crawl wC8 cfgC8 3).1.documents.map AIDocument.link_density =
      [roundTo 3 ((201 : ℚ) / 102)] ∧
    (1 : ℚ) < roundTo 3 ((201 : ℚ) / 102) := by
  constructor
  · have hdocs : (crawl wC8 cfgC8 3).1.documents =
        [enrich wC8.detect (wC8.clock 0) (extract_and_clean soupC8) "https://x.com/p" 200 0] :=
      rfl
    rw [hdocs]
    have h1 : linkTextLen (extract_main_content soupC8) = 201 := by decide
    have h2 : (bodyTextOf (extract_main_content soupC8)).length = 102 := by decide
    have h3 : (extract_and_clean soupC8).link_density = (201 : ℚ) / 102 := by
      have h : (extract_and_clean soupC8).link_density =
          (linkTextLen (extract_main_content soupC8) : ℚ) /
            ((max (bodyTextOf (extract_main_content soupC8)).length 1 : Nat) : ℚ) := rfl
      rw [h, h1, h2]
      norm_num
    have h4 : (enrich wC8.detect (wC8.clock 0) (extract_and_clean soupC8)
        "https://x.com/p" 200 0).link_density = roundTo 3 (extract_and_clean soupC8).link_density :=
      rfl
    simp only [List.map_cons, List.map_nil, h4, h3]
  · have hfl : ⌊((201 : ℚ) / 102 * 10 ^ 3 + 1 / 2)⌋ = (1971 : ℤ) := by
      rw [Int.floor_eq_iff]
      constructor <;> norm_num
    have hval : roundTo 3 ((201 : ℚ) / 102) = ((1971 : ℤ) : ℚ) / 10 ^ 3 := by
      unfold roundTo
      rw [round_eq, hfl]
    rw [hval]
    norm_num


/-! ## Character-level lemmas for the URL proofs -/

theorem charToNat_ofNat {n : Nat} (h : n < 55296) : (Char.ofNat n).toNat = n := by
  have hv : n.isValidChar := Or.inl h
  simp [Char.ofNat, dif_pos hv, Char.ofNatAux, Char.toNat, UInt32.toNat]

theorem char_toNat_inj {c d : Char} (h : c.toNat = d.toNat) : c = d := by
  rw [← Char.ofNat_toNat c, ← Char.ofNat_toNat d, h]

theorem pyLowerChar_toNat (c : Char) :
    (pyLowerChar c).toNat =
      if 65 ≤ c.toNat ∧ c.toNat ≤ 90 then c.toNat + 32 else c.toNat := by
  unfold pyLowerChar
  split
  · next h => exact charToNat_ofNat (by omega)
  · rfl

theorem pyIsAsciiAlpha_iff (c : Char) :
    pyIsAsciiAlpha c = true ↔ (65 ≤ c.toNat ∧ c.toNat ≤ 90) ∨ (97 ≤ c.toNat ∧ c.toNat ≤ 122) := by
  simp [pyIsAsciiAlpha]

theorem schemeChars_iff (c : Char) :
    schemeChars c = true ↔
      (65 ≤ c.toNat ∧ c.toNat ≤ 90) ∨ (97 ≤ c.toNat ∧ c.toNat ≤ 122) ∨
      (48 ≤ c.toNat ∧ c.toNat ≤ 57) ∨ c.toNat = 43 ∨ c.toNat = 45 ∨ c.toNat = 46 := by
  simp [schemeChars, pyIsAsciiAlpha, pyIsAsciiDigit]
  omega

theorem pyIsAsciiAlpha_pyLowerChar (c : Char) (h : pyIsAsciiAlpha c = true) :
    pyIsAsciiAlpha (pyLowerChar c) = true := by
  rw [pyIsAsciiAlpha_iff] at h ⊢
  rw [pyLowerChar_toNat]
  split <;> omega

theorem schemeChars_pyLowerChar (c : Char) (h : schemeChars c = true) :
    schemeChars (pyLowerChar c) = true := by
  rw [schemeChars_iff] at h ⊢
  rw [pyLowerChar_toNat]
  split <;> omega

theorem pyLowerChar_idem (c : Char) : pyLowerChar (pyLowerChar c) = pyLowerChar c := by
  apply char_toNat_inj
  rw [pyLowerChar_toNat, pyLowerChar_toNat]
  by_cases hA : 65 ≤ c.toNat ∧ c.toNat ≤ 90
  · simp only [if_pos hA]
    rw [if_neg (by omega)]
  · simp only [if_neg hA]

theorem schemeChars_ne_colon (c : Char) (h : schemeChars c = true) : c ≠ ':' := by
  intro he
  subst he
  exact absurd h (by decide)

theorem pyIsAsciiAlpha_schemeChars (c : Char) (h : pyIsAsciiAlpha c = true) :
    schemeChars c = true := by
  rw [pyIsAsciiAlpha_iff] at h
  rw [schemeChars_iff]
  omega

theorem validScheme_chars (pre : List Char) (h : validScheme pre = true) :
    ∀ c ∈ pre, schemeChars c = true := by
  cases pre with
  | nil => simp [validScheme] at h
  | cons a rest =>
    simp only [validScheme, Bool.and_eq_true, List.all_eq_true] at h
    intro c hc
    rcases List.mem_cons.mp hc with h2 | h2
    · exact h2 ▸ pyIsAsciiAlpha_schemeChars a h.1
    · exact h.2 c h2

theorem validScheme_map_lower (pre : List Char) (h : validScheme pre = true) :
    validScheme (pre.map pyLowerChar) = true := by
  cases pre with
  | nil => simp [validScheme] at h
  | cons a rest =>
    simp only [validScheme, Bool.and_eq_true, List.all_eq_true] at h
    simp only [List.map_cons, validScheme, Bool.and_eq_true, List.all_eq_true]
    refine ⟨pyIsAsciiAlpha_pyLowerChar a h.1, ?_⟩
    intro c hc
    rw [List.mem_map] at hc
    obtain ⟨d, hd, he⟩ := hc
    subst he
    exact schemeChars_pyLowerChar d (h.2 d hd)

theorem map_pyLowerChar_idem (l : List Char) :
    (l.map pyLowerChar).map pyLowerChar = l.map pyLowerChar := by
  rw [List.map_map]
  exact List.map_congr_left (fun c _ => pyLowerChar_idem c)



/-! ## List splitting lemmas -/

theorem splitFirst_eq_none (c : Char) (l : List Char) (h : c ∉ l) : splitFirst c l = none := by
  induction l with
  | nil => rfl
  | cons a t ih =>
    have ha : a ≠ c := fun he => h (he ▸ List.mem_cons_self a t)
    have ht : c ∉ t := fun hm => h (List.mem_cons_of_mem a hm)
    simp only [splitFirst, if_neg ha, ih ht]

theorem splitFirst_append_cons (c : Char) (a b : List Char) (h : c ∉ a) :
    splitFirst c (a ++ c :: b) = some (a, b) := by
  induction a with
  | nil => simp [splitFirst]
  | cons x t ih =>
    have hx : x ≠ c := fun he => h (he ▸ List.mem_cons_self x t)
    have ht : c ∉ t := fun hm => h (List.mem_cons_of_mem x hm)
    simp only [List.cons_append, splitFirst, List.append_eq, if_neg hx, ih ht]

theorem splitFirst_some_spec (c : Char) :
    ∀ (l p q : List Char), splitFirst c l = some (p, q) → l = p ++ c :: q ∧ c ∉ p := by
  intro l
  induction l with
  | nil => intro p q h; simp [splitFirst] at h
  | cons a t ih =>
    intro p q h
    simp only [splitFirst] at h
    by_cases ha : a = c
    · rw [if_pos ha] at h
      simp only [Option.some.injEq, Prod.mk.injEq] at h
      obtain ⟨h1, h2⟩ := h
      subst h1; subst h2; subst ha
      simp
    · rw [if_neg ha] at h
      cases h2 : splitFirst c t with
      | none => rw [h2] at h; exact absurd h (by simp)
      | some pq =>
        obtain ⟨p', q'⟩ := pq
        rw [h2] at h
        simp only [Option.some.injEq, Prod.mk.injEq] at h
        obtain ⟨hp, hq⟩ := h
        subst hp; subst hq
        obtain ⟨ht, hnp⟩ := ih p' q' h2
        subst ht
        refine ⟨by simp, ?_⟩
        intro hm
        rcases List.mem_cons.mp hm with he | hm2
        · exact ha he.symm
        · exact hnp hm2

theorem splitFirst_append_left (c : Char) (a x p q : List Char)
    (h : splitFirst c a = some (p, q)) : splitFirst c (a ++ x) = some (p, q ++ x) := by
  obtain ⟨ha, hnp⟩ := splitFirst_some_spec c a p q h
  subst ha
  rw [List.append_assoc, List.cons_append]
  exact splitFirst_append_cons c p (q ++ x) hnp

theorem takeWhile_append_all (p : Char → Bool) (a b : List Char) (h : ∀ x ∈ a, p x = true) :
    (a ++ b).takeWhile p = a ++ b.takeWhile p := by
  induction a with
  | nil => simp
  | cons x t ih =>
    have hx := h x (List.mem_cons_self x t)
    simp only [List.cons_append, List.takeWhile_cons, hx, if_true]
    rw [ih (fun y hy => h y (List.mem_cons_of_mem x hy))]

theorem dropWhile_append_all (p : Char → Bool) (a b : List Char) (h : ∀ x ∈ a, p x = true) :
    (a ++ b).dropWhile p = b.dropWhile p := by
  induction a with
  | nil => simp
  | cons x t ih =>
    have hx := h x (List.mem_cons_self x t)
    simp only [List.cons_append, List.dropWhile_cons, hx, if_true]
    exact ih (fun y hy => h y (List.mem_cons_of_mem x hy))

theorem takeWhile_append_stop (p : Char → Bool) (a b : List Char) (x : Char) (hx : p x = false) :
    (a ++ x :: b).takeWhile p = a.takeWhile p := by
  induction a with
  | nil => simp [List.takeWhile_cons, hx]
  | cons y t ih =>
    cases hy : p y <;> simp [List.takeWhile_cons, hy, ih]

theorem dropWhile_append_stop (p : Char → Bool) (a b : List Char) (x : Char) (hx : p x = false) :
    (a ++ x :: b).dropWhile p = a.dropWhile p ++ x :: b := by
  induction a with
  | nil => simp [List.dropWhile_cons, hx]
  | cons y t ih =>
    cases hy : p y <;> simp [List.dropWhile_cons, hy, ih, hx]


/-! ## Safety and membership facts -/

theorem urlSafeChar_of_gt (c : Char) (h : 13 < c.toNat) : urlSafeChar c = true := by
  unfold urlSafeChar
  have h1 : c ≠ '\t' := fun he => absurd (he ▸ h) (by decide)
  have h2 : c ≠ '\r' := fun he => absurd (he ▸ h) (by decide)
  have h3 : c ≠ '\n' := fun he => absurd (he ▸ h) (by decide)
  simp [h1, h2, h3]

theorem schemeChars_toNat_lb (c : Char) (h : schemeChars c = true) : 43 ≤ c.toNat := by
  rw [schemeChars_iff] at h
  omega

theorem schemeChars_safe (c : Char) (h : schemeChars c = true) : urlSafeChar c = true :=
  urlSafeChar_of_gt c (by have := schemeChars_toNat_lb c h; omega)

theorem schemeChars_not_c0 (c : Char) (h : schemeChars c = true) :
    c0ControlOrSpace c = false := by
  have := schemeChars_toNat_lb c h
  unfold c0ControlOrSpace
  simp only [decide_eq_false_iff_not]
  omega

theorem schemeChars_ne_hash (c : Char) (h : schemeChars c = true) : c ≠ '#' := by
  intro he; subst he; exact absurd h (by decide)

theorem schemeChars_ne_question (c : Char) (h : schemeChars c = true) : c ≠ '?' := by
  intro he; subst he; exact absurd h (by decide)

theorem schemeChars_ne_semi (c : Char) (h : schemeChars c = true) : c ≠ ';' := by
  intro he; subst he; exact absurd h (by decide)

theorem notDelim_mem_ne (N : List Char) (hN : ∀ c ∈ N, notDelim c = true) :
    '/' ∉ N ∧ '?' ∉ N ∧ '#' ∉ N := by
  refine ⟨fun hm => ?_, fun hm => ?_, fun hm => ?_⟩ <;>
    exact absurd (hN _ hm) (by decide)

theorem not_mem_append_iff {c : Char} {a b : List Char} :
    c ∉ a ++ b ↔ c ∉ a ∧ c ∉ b := by
  simp [List.mem_append]

/-! ## preClean fixed point -/

theorem preClean_eq_self (l : List Char) (h1 : ∀ c ∈ l, urlSafeChar c = true)
    (h2 : ∀ c, l.head? = some c → c0ControlOrSpace c = false) :
    preClean l = l := by
  unfold preClean
  cases l with
  | nil => rfl
  | cons a t =>
    have ha := h2 a rfl
    rw [List.dropWhile_cons, ha]
    simp only [Bool.false_eq_true, if_false]
    exact List.filter_eq_self.mpr h1

/-! ## Scheme re-extraction -/

theorem validScheme_ne_nil (S : List Char) (hv : validScheme S = true) : S ≠ [] := by
  cases S with
  | nil => simp [validScheme] at hv
  | cons a t => simp

theorem schemeSplit_of_valid (S rest : List Char) (hv : validScheme S = true)
    (hl : S.map pyLowerChar = S) :
    schemeSplit (S ++ ':' :: rest) = (S, rest) := by
  have hco : ':' ∉ S := fun hm => schemeChars_ne_colon _ (validScheme_chars S hv _ hm) rfl
  unfold schemeSplit
  rw [splitFirst_append_cons ':' S rest hco]
  simp only [if_pos hv, hl]

/-- Safety of every character of the reassembled URL. -/
theorem reassm_safe (S N P opt : List Char)
    (hv : validScheme S = true)
    (hNsafe : ∀ c ∈ N, urlSafeChar c = true)
    (hPsafe : ∀ c ∈ P, urlSafeChar c = true)
    (hOsafe : ∀ c ∈ opt, urlSafeChar c = true) :
    ∀ c ∈ S ++ ':' :: '/' :: '/' :: (N ++ P ++ opt), urlSafeChar c = true := by
  have hSchars : ∀ c ∈ S, schemeChars c = true := validScheme_chars S hv
  intro c hc
  rcases List.mem_append.mp hc with h | h
  · exact schemeChars_safe c (hSchars c h)
  · rcases List.mem_cons.mp h with rfl | h
    · decide
    · rcases List.mem_cons.mp h with rfl | h
      · decide
      · rcases List.mem_cons.mp h with rfl | h
        · decide
        · rcases List.mem_append.mp h with h | h
          · rcases List.mem_append.mp h with h | h
            · exact hNsafe c h
            · exact hPsafe c h
          · exact hOsafe c h

/-- The reassembled URL survives `preClean`. -/
theorem reassm_preClean (S N P opt : List Char)
    (hv : validScheme S = true)
    (hNsafe : ∀ c ∈ N, urlSafeChar c = true)
    (hPsafe : ∀ c ∈ P, urlSafeChar c = true)
    (hOsafe : ∀ c ∈ opt, urlSafeChar c = true) :
    preClean (S ++ ':' :: '/' :: '/' :: (N ++ P ++ opt)) =
      S ++ ':' :: '/' :: '/' :: (N ++ P ++ opt) := by
  have hSchars : ∀ c ∈ S, schemeChars c = true := validScheme_chars S hv
  refine preClean_eq_self _ (reassm_safe S N P opt hv hNsafe hPsafe hOsafe) ?_
  intro c hc
  cases S with
  | nil => exact absurd hv (by simp [validScheme])
  | cons a t =>
    simp only [List.cons_append, List.head?_cons, Option.some.injEq] at hc
    subst hc
    exact schemeChars_not_c0 _ (hSchars _ (by simp))

/-! ## The reassembled URL re-parses to itself -/

theorem urlparse_roundtrip_noquery (S N P : List Char)
    (hv : validScheme S = true) (hl : S.map pyLowerChar = S)
    (hN : ∀ c ∈ N, notDelim c = true)
    (hNsafe : ∀ c ∈ N, urlSafeChar c = true)
    (hPh : '#' ∉ P) (hPq : '?' ∉ P) (hPs : ';' ∉ P)
    (hPsafe : ∀ c ∈ P, urlSafeChar c = true)
    (hNsemi : ';' ∉ N) :
    urlparseCore (S ++ ':' :: '/' :: '/' :: (N ++ P)) =
      ⟨S, (N ++ P).takeWhile notDelim, (N ++ P).dropWhile notDelim, [], [], []⟩ := by
  have hpc := reassm_preClean S N P [] hv hNsafe hPsafe (by simp)
  rw [List.append_nil] at hpc
  have hnq : '?' ∉ N ++ P := not_mem_append_iff.mpr ⟨(notDelim_mem_ne N hN).2.1, hPq⟩
  have hnh : '#' ∉ N ++ P := not_mem_append_iff.mpr ⟨(notDelim_mem_ne N hN).2.2, hPh⟩
  have hns : ';' ∉ N ++ P := not_mem_append_iff.mpr ⟨hNsemi, hPs⟩
  have hDsub := (List.dropWhile_sublist (l := N ++ P) notDelim).subset
  simp only [urlparseCore]
  rw [hpc, schemeSplit_of_valid S ('/' :: '/' :: (N ++ P)) hv hl]
  have hnl : netlocSplit ('/' :: '/' :: (N ++ P)) =
      ((N ++ P).takeWhile notDelim, (N ++ P).dropWhile notDelim) := by
    simp [netlocSplit]
  rw [hnl]
  have hfrag : fragSplit ((N ++ P).dropWhile notDelim) =
      ((N ++ P).dropWhile notDelim, []) := by
    unfold fragSplit
    rw [splitFirst_eq_none '#' _ (fun hm => hnh (hDsub hm))]
  rw [hfrag]
  have hquery : querySplit ((N ++ P).dropWhile notDelim) =
      ((N ++ P).dropWhile notDelim, []) := by
    unfold querySplit
    rw [splitFirst_eq_none '?' _ (fun hm => hnq (hDsub hm))]
  rw [hquery]
  rw [if_neg (fun hm => hns (hDsub hm))]

theorem urlparse_roundtrip_query (S N P Q : List Char)
    (hv : validScheme S = true) (hl : S.map pyLowerChar = S)
    (hN : ∀ c ∈ N, notDelim c = true)
    (hNsafe : ∀ c ∈ N, urlSafeChar c = true)
    (hPh : '#' ∉ P) (hPq : '?' ∉ P) (hPs : ';' ∉ P)
    (hPsafe : ∀ c ∈ P, urlSafeChar c = true)
    (hNsemi : ';' ∉ N)
    (hQh : '#' ∉ Q) (hQsafe : ∀ c ∈ Q, urlSafeChar c = true) :
    urlparseCore (S ++ ':' :: '/' :: '/' :: (N ++ P ++ '?' :: Q)) =
      ⟨S, N ++ P.takeWhile notDelim, P.dropWhile notDelim, [], Q, []⟩ := by
  have hOsafe : ∀ c ∈ '?' :: Q, urlSafeChar c = true := by
    intro c hc
    rcases List.mem_cons.mp hc with rfl | hc
    · decide
    · exact hQsafe c hc
  have hpc := reassm_preClean S N P ('?' :: Q) hv hNsafe hPsafe hOsafe
  have hDP := (List.dropWhile_sublist (l := P) notDelim).subset
  simp only [urlparseCore]
  rw [hpc, schemeSplit_of_valid S ('/' :: '/' :: (N ++ P ++ '?' :: Q)) hv hl]
  have hnl : netlocSplit ('/' :: '/' :: (N ++ P ++ '?' :: Q)) =
      ((N ++ P ++ '?' :: Q).takeWhile notDelim, (N ++ P ++ '?' :: Q).dropWhile notDelim) := by
    simp [netlocSplit]
  rw [hnl]
  have hT : (N ++ P ++ '?' :: Q).takeWhile notDelim = N ++ P.takeWhile notDelim := by
    rw [List.append_assoc, takeWhile_append_all notDelim N _ hN,
      takeWhile_append_stop notDelim P Q '?' (by decide)]
  have hD : (N ++ P ++ '?' :: Q).dropWhile notDelim =
      P.dropWhile notDelim ++ '?' :: Q := by
    rw [List.append_assoc, dropWhile_append_all notDelim N _ hN,
      dropWhile_append_stop notDelim P Q '?' (by decide)]
  rw [hT, hD]
  have hfrag : fragSplit (P.dropWhile notDelim ++ '?' :: Q) =
      (P.dropWhile notDelim ++ '?' :: Q, []) := by
    unfold fragSplit
    rw [splitFirst_eq_none '#' _ ?_]
    intro hm
    rcases List.mem_append.mp hm with h | h
    · exact hPh (hDP h)
    · rcases List.mem_cons.mp h with he | h
      · exact absurd he (by decide)
      · exact hQh h
  rw [hfrag]
  have hquery : querySplit (P.dropWhile notDelim ++ '?' :: Q) =
      (P.dropWhile notDelim, Q) := by
    unfold querySplit
    rw [splitFirst_append_cons '?' _ Q (fun hm => hPq (hDP hm))]
  rw [hquery]
  rw [if_neg (fun hm => hPs (hDP hm))]


theorem reassembleCore_fixed_noquery (S N P : List Char)
    (hv : validScheme S = true) (hl : S.map pyLowerChar = S)
    (hN : ∀ c ∈ N, notDelim c = true)
    (hNsafe : ∀ c ∈ N, urlSafeChar c = true)
    (hPh : '#' ∉ P) (hPq : '?' ∉ P) (hPs : ';' ∉ P)
    (hPsafe : ∀ c ∈ P, urlSafeChar c = true)
    (hNsemi : ';' ∉ N) :
    reassembleCore (S ++ ':' :: '/' :: '/' :: (N ++ P)) =
      S ++ ':' :: '/' :: '/' :: (N ++ P) := by
  simp only [reassembleCore,
    urlparse_roundtrip_noquery S N P hv hl hN hNsafe hPh hPq hPs hPsafe hNsemi]
  simp only [ne_eq, not_true_eq_false, if_false, List.append_nil, List.nil_append,
    List.cons_append, List.append_assoc, List.takeWhile_append_dropWhile]

theorem reassembleCore_fixed_query (S N P Q : List Char)
    (hv : validScheme S = true) (hl : S.map pyLowerChar = S)
    (hN : ∀ c ∈ N, notDelim c = true)
    (hNsafe : ∀ c ∈ N, urlSafeChar c = true)
    (hPh : '#' ∉ P) (hPq : '?' ∉ P) (hPs : ';' ∉ P)
    (hPsafe : ∀ c ∈ P, urlSafeChar c = true)
    (hNsemi : ';' ∉ N)
    (hQne : Q ≠ []) (hQh : '#' ∉ Q) (hQsafe : ∀ c ∈ Q, urlSafeChar c = true) :
    reassembleCore (S ++ ':' :: '/' :: '/' :: (N ++ P ++ '?' :: Q)) =
      S ++ ':' :: '/' :: '/' :: (N ++ P ++ '?' :: Q) := by
  simp only [reassembleCore,
    urlparse_roundtrip_query S N P Q hv hl hN hNsafe hPh hPq hPs hPsafe hNsemi hQh hQsafe]
  simp only [ne_eq, hQne, not_false_eq_true, if_true, List.nil_append, List.cons_append,
    List.append_assoc]
  rw [← List.append_assoc (P.takeWhile notDelim), List.takeWhile_append_dropWhile]


/-! ## Components of an arbitrary parse -/

theorem splitFirst_none_not_mem (c : Char) :
    ∀ l : List Char, splitFirst c l = none → c ∉ l := by
  intro l
  induction l with
  | nil => intro h hm; simp at hm
  | cons a t ih =>
    intro h hm
    simp only [splitFirst] at h
    by_cases ha : a = c
    · rw [if_pos ha] at h; exact absurd h (by simp)
    · rw [if_neg ha] at h
      cases h2 : splitFirst c t with
      | none =>
        rcases List.mem_cons.mp hm with he | hm2
        · exact ha he.symm
        · exact ih h2 hm2
      | some pq => rw [h2] at h; exact absurd h (by simp)

theorem preClean_subset (l : List Char) : ∀ c ∈ preClean l, c ∈ l := by
  intro c hc
  unfold preClean at hc
  exact (List.dropWhile_sublist c0ControlOrSpace).subset (List.mem_of_mem_filter hc)

theorem preClean_safe (l : List Char) : ∀ c ∈ preClean l, urlSafeChar c = true := by
  intro c hc
  unfold preClean at hc
  exact List.of_mem_filter hc

theorem schemeSplit_snd_subset (l : List Char) : ∀ c ∈ (schemeSplit l).2, c ∈ l := by
  unfold schemeSplit
  cases h : splitFirst ':' l with
  | none => intro c hc; exact hc
  | some pq =>
    obtain ⟨pre, post⟩ := pq
    by_cases hv : validScheme pre
    · simp only [if_pos hv]
      intro c hc
      obtain ⟨hl, -⟩ := splitFirst_some_spec ':' l pre post h
      rw [hl]
      simp only [List.mem_append, List.mem_cons]
      right; right; exact hc
    · simp only [if_neg hv]
      intro c hc; exact hc

theorem schemeSplit_fst_spec (l : List Char) :
    (schemeSplit l).1 = [] ∨
    (validScheme (schemeSplit l).1 = true ∧
      (schemeSplit l).1.map pyLowerChar = (schemeSplit l).1) := by
  unfold schemeSplit
  cases h : splitFirst ':' l with
  | none => left; rfl
  | some pq =>
    obtain ⟨pre, post⟩ := pq
    by_cases hv : validScheme pre
    · simp only [if_pos hv]
      right
      exact ⟨validScheme_map_lower pre hv, map_pyLowerChar_idem pre⟩
    · simp only [if_neg hv]
      left; trivial

theorem netlocSplit_spec (l : List Char) :
    (∀ c ∈ (netlocSplit l).1, notDelim c = true) ∧
    (∀ c ∈ (netlocSplit l).1, c ∈ l) ∧ (∀ c ∈ (netlocSplit l).2, c ∈ l) := by
  rcases l with - | ⟨a, - | ⟨b, t⟩⟩
  · exact ⟨by simp [netlocSplit], by simp [netlocSplit], by simp [netlocSplit]⟩
  · exact ⟨by simp [netlocSplit], by simp [netlocSplit], by simp [netlocSplit]⟩
  · by_cases h : a = '/' ∧ b = '/'
    · refine ⟨?_, ?_, ?_⟩ <;> simp only [netlocSplit, if_pos h] <;> intro c hc
      · exact List.mem_takeWhile_imp hc
      · have := (List.takeWhile_sublist (l := t) notDelim).subset hc
        simp [this]
      · have := (List.dropWhile_sublist (l := t) notDelim).subset hc
        simp [this]
    · refine ⟨?_, ?_, ?_⟩ <;> simp only [netlocSplit, if_neg h] <;> intro c hc
      · simp at hc
      · simp at hc
      · exact hc

theorem fragSplit_spec (l : List Char) :
    '#' ∉ (fragSplit l).1 ∧ (∀ c ∈ (fragSplit l).1, c ∈ l) := by
  unfold fragSplit
  cases h : splitFirst '#' l with
  | none => exact ⟨splitFirst_none_not_mem '#' l h, fun c hc => hc⟩
  | some pq =>
    obtain ⟨p, q⟩ := pq
    obtain ⟨hl, hnp⟩ := splitFirst_some_spec '#' l p q h
    refine ⟨hnp, fun c hc => ?_⟩
    rw [hl]
    simp only [List.mem_append]
    left; exact hc

theorem querySplit_spec (l : List Char) :
    '?' ∉ (querySplit l).1 ∧ (∀ c ∈ (querySplit l).1, c ∈ l) ∧
    (∀ c ∈ (querySplit l).2, c ∈ l) := by
  unfold querySplit
  cases h : splitFirst '?' l with
  | none => exact ⟨splitFirst_none_not_mem '?' l h, fun c hc => hc, by simp⟩
  | some pq =>
    obtain ⟨p, q⟩ := pq
    obtain ⟨hl, hnp⟩ := splitFirst_some_spec '?' l p q h
    refine ⟨hnp, fun c hc => ?_, fun c hc => ?_⟩ <;> rw [hl] <;>
      simp only [List.mem_append, List.mem_cons]
    · left; exact hc
    · right; right; exact hc

theorem paramsSplit_subset (p : List Char) : ∀ c ∈ (paramsSplit p).1, c ∈ p := by
  unfold paramsSplit
  by_cases h : '/' ∈ p
  · rw [if_pos h]
    cases h2 : splitFirst ';' (lastSlashSplit p).2 with
    | none => intro c hc; exact hc
    | some ab =>
      obtain ⟨a, b⟩ := ab
      intro c hc
      rcases List.mem_append.mp hc with hc | hc
      · exact (List.take_sublist _ _).subset hc
      · obtain ⟨hseg, -⟩ := splitFirst_some_spec ';' _ a b h2
        have ha : c ∈ (lastSlashSplit p).2 := by
          rw [hseg]; simp only [List.mem_append]; left; exact hc
        unfold lastSlashSplit at ha
        simp only at ha
        rw [List.mem_reverse] at ha
        have := (List.takeWhile_sublist (l := p.reverse) (fun c => c ≠ '/')).subset ha
        rwa [List.mem_reverse] at this
  · rw [if_neg h]
    cases h2 : splitFirst ';' p with
    | none => intro c hc; exact hc
    | some ab =>
      obtain ⟨a, b⟩ := ab
      intro c hc
      obtain ⟨hl, -⟩ := splitFirst_some_spec ';' p a b h2
      rw [hl]
      simp only [List.mem_append]
      left; exact hc


/-- Structural facts about the components of an arbitrary parse: the
scheme is empty or a valid, already-lower-cased scheme; the netloc
contains no `/?#`; the path contains no `#` or `?`; the query contains
no `#`; every component survives the sanitizer; and a `;`-free input
yields `;`-free components. -/
theorem urlparseCore_spec (l0 : List Char) :
    ((urlparseCore l0).scheme = [] ∨
      (validScheme (urlparseCore l0).scheme = true ∧
       (urlparseCore l0).scheme.map pyLowerChar = (urlparseCore l0).scheme)) ∧
    (∀ c ∈ (urlparseCore l0).netloc, notDelim c = true) ∧
    '#' ∉ (urlparseCore l0).path ∧ '?' ∉ (urlparseCore l0).path ∧
    '#' ∉ (urlparseCore l0).query ∧
    (∀ c ∈ (urlparseCore l0).netloc, urlSafeChar c = true) ∧
    (∀ c ∈ (urlparseCore l0).path, urlSafeChar c = true) ∧
    (∀ c ∈ (urlparseCore l0).query, urlSafeChar c = true) ∧
    (';' ∉ l0 →
      ';' ∉ (urlparseCore l0).netloc ∧ ';' ∉ (urlparseCore l0).path ∧
      ';' ∉ (urlparseCore l0).query) := by
  have hLsafe := preClean_safe l0
  have hLsub := preClean_subset l0
  have hR1sub := schemeSplit_snd_subset (preClean l0)
  have hSch := schemeSplit_fst_spec (preClean l0)
  obtain ⟨hNdelim, hNsub, hR2sub⟩ := netlocSplit_spec (schemeSplit (preClean l0)).2
  obtain ⟨hR3hash, hR3sub⟩ := fragSplit_spec (netlocSplit (schemeSplit (preClean l0)).2).2
  obtain ⟨hPQq, hPQsub, hQsub⟩ :=
    querySplit_spec (fragSplit (netlocSplit (schemeSplit (preClean l0)).2).2).1
  have hpathPQ : ∀ c ∈ (urlparseCore l0).path,
      c ∈ (querySplit (fragSplit (netlocSplit (schemeSplit (preClean l0)).2).2).1).1 := by
    intro c hc
    simp only [urlparseCore] at hc
    by_cases hsp : ';' ∈ (querySplit (fragSplit (netlocSplit (schemeSplit (preClean l0)).2).2).1).1
    · rw [if_pos hsp] at hc
      exact paramsSplit_subset _ c hc
    · rw [if_neg hsp] at hc
      exact hc
  have hnetloc : (urlparseCore l0).netloc = (netlocSplit (schemeSplit (preClean l0)).2).1 := rfl
  have hquery : (urlparseCore l0).query =
      (querySplit (fragSplit (netlocSplit (schemeSplit (preClean l0)).2).2).1).2 := rfl
  have hscheme : (urlparseCore l0).scheme = (schemeSplit (preClean l0)).1 := rfl
  have hNL : ∀ c ∈ (urlparseCore l0).netloc, c ∈ preClean l0 := by
    intro c hc; rw [hnetloc] at hc; exact hR1sub c (hNsub c hc)
  have hPL : ∀ c ∈ (urlparseCore l0).path, c ∈ preClean l0 := by
    intro c hc
    exact hR1sub c (hR2sub c (hR3sub c (hPQsub c (hpathPQ c hc))))
  have hQL : ∀ c ∈ (urlparseCore l0).query, c ∈ preClean l0 := by
    intro c hc; rw [hquery] at hc
    exact hR1sub c (hR2sub c (hR3sub c (hQsub c hc)))
  refine ⟨hscheme ▸ hSch, hnetloc ▸ hNdelim, ?_, ?_, ?_, ?_, ?_, ?_, ?_⟩
  · exact fun hm => hR3hash (hPQsub _ (hpathPQ _ hm))
  · exact fun hm => hPQq (hpathPQ _ hm)
  · exact fun hm => hR3hash (hQsub _ (hquery ▸ hm))
  · exact fun c hc => hLsafe c (hNL c hc)
  · exact fun c hc => hLsafe c (hPL c hc)
  · exact fun c hc => hLsafe c (hQL c hc)
  · intro hsemi
    exact ⟨fun hm => hsemi (hLsub _ (hNL _ hm)),
           fun hm => hsemi (hLsub _ (hPL _ hm)),
           fun hm => hsemi (hLsub _ (hQL _ hm))⟩

/-- The reassembled URL written with a single right-nested spine. -/
theorem reassembleCore_shape (l : List Char) :
    reassembleCore l =
      (urlparseCore l).scheme ++ ':' :: '/' :: '/' ::
        ((urlparseCore l).netloc ++ (urlparseCore l).path ++
          (if (urlparseCore l).query ≠ [] then '?' :: (urlparseCore l).query else [])) := by
  simp only [reassembleCore]
  by_cases h : (urlparseCore l).query ≠ [] <;>
    simp [h, List.append_assoc]


theorem schemeChars_ne_slash (c : Char) (h : schemeChars c = true) : c ≠ '/' := by
  intro he; subst he; exact absurd h (by decide)

theorem normalizeCore_unfold (l : List Char) :
    normalizeCore l =
      if (reassembleCore l).getLast? = some '/' ∧ 3 < (reassembleCore l).count '/' then
        (reassembleCore l).dropLast
      else reassembleCore l := rfl

/-- Idempotence of `normalize_url` on the core, for inputs with a parsed
scheme and no semicolon whose normalized form neither ends in `?` nor
still satisfies the strip condition. -/
theorem normalizeCore_idem (l : List Char)
    (hS : (urlparseCore l).scheme ≠ [])
    (hsemi : ';' ∉ l)
    (hq : (normalizeCore l).getLast? ≠ some '?')
    (hstrip : ¬((normalizeCore l).getLast? = some '/' ∧ 3 < (normalizeCore l).count '/')) :
    normalizeCore (normalizeCore l) = normalizeCore l := by
  obtain ⟨hSch, hNdelim, hPh, hPq, hQh, hNsafe, hPsafe, hQsafe, hsemis⟩ := urlparseCore_spec l
  obtain ⟨hNsemi, hPsemi, hQsemi⟩ := hsemis hsemi
  rcases hSch with h0 | ⟨hv, hl⟩
  · exact absurd h0 hS
  have hshape := reassembleCore_shape l
  by_cases hQe : (urlparseCore l).query = []
  · -- no query in the reassembled string
    have hn0 : reassembleCore l =
        (urlparseCore l).scheme ++ ':' :: '/' :: '/' ::
          ((urlparseCore l).netloc ++ (urlparseCore l).path) := by
      rw [hshape]; simp [hQe]
    by_cases hc : (reassembleCore l).getLast? = some '/' ∧ 3 < (reassembleCore l).count '/'
    · -- strip case: the last character comes from the path
      have hv0 : normalizeCore l = (reassembleCore l).dropLast := by
        rw [normalizeCore_unfold, if_pos hc]
      have hPne : (urlparseCore l).path ≠ [] := by
        intro hPe
        rw [hn0, hPe, List.append_nil] at hc
        by_cases hNe : (urlparseCore l).netloc = []
        · rw [hNe] at hc
          have hcount : ((urlparseCore l).scheme ++ [':', '/', '/']).count '/' = 2 := by
            rw [List.count_append]
            have : '/' ∉ (urlparseCore l).scheme := fun hm =>
              schemeChars_ne_slash _ (validScheme_chars _ hv _ hm) rfl
            rw [List.count_eq_zero_of_not_mem this]
            decide
          have : (urlparseCore l).scheme ++ ':' :: '/' :: '/' :: [] =
              (urlparseCore l).scheme ++ [':', '/', '/'] := rfl
          rw [this, hcount] at hc
          omega
        · have hlast : ((urlparseCore l).scheme ++ ':' :: '/' :: '/' ::
              (urlparseCore l).netloc).getLast? = (urlparseCore l).netloc.getLast? := by
            have h1 : (urlparseCore l).scheme ++ ':' :: '/' :: '/' ::
                (urlparseCore l).netloc =
                ((urlparseCore l).scheme ++ [':', '/', '/']) ++ (urlparseCore l).netloc := by
              simp [List.append_assoc]
            rw [h1, List.getLast?_append, List.getLast?_eq_getLast _ hNe]
            rfl
          rw [hlast, List.getLast?_eq_getLast _ hNe] at hc
          have hmem := List.getLast_mem hNe
          have := hNdelim _ hmem
          rw [Option.some.injEq] at hc
          rw [hc.1] at this
          exact absurd this (by decide)
      -- v = scheme://netloc ++ path.dropLast
      have hvshape : normalizeCore l =
          (urlparseCore l).scheme ++ ':' :: '/' :: '/' ::
            ((urlparseCore l).netloc ++ (urlparseCore l).path.dropLast) := by
        rw [hv0, hn0]
        have h1 : (urlparseCore l).scheme ++ ':' :: '/' :: '/' ::
            ((urlparseCore l).netloc ++ (urlparseCore l).path) =
            ((urlparseCore l).scheme ++ ':' :: '/' :: '/' :: (urlparseCore l).netloc) ++
              (urlparseCore l).path := by
          simp [List.append_assoc]
        rw [h1, List.dropLast_append_of_ne_nil _ hPne]
        simp [List.append_assoc]
      have hsub := (List.dropLast_sublist (urlparseCore l).path).subset
      rw [hvshape]
      rw [normalizeCore_unfold]
      rw [reassembleCore_fixed_noquery _ _ _ hv hl hNdelim hNsafe
        (fun hm => hPh (hsub hm)) (fun hm => hPq (hsub hm)) (fun hm => hPsemi (hsub hm))
        (fun c hc2 => hPsafe c (hsub hc2)) hNsemi]
      rw [if_neg (hvshape ▸ hstrip)]
    · -- no strip
      have hv0 : normalizeCore l = reassembleCore l := by
        rw [normalizeCore_unfold, if_neg hc]
      rw [hv0, hn0]
      rw [normalizeCore_unfold]
      rw [reassembleCore_fixed_noquery _ _ _ hv hl hNdelim hNsafe hPh hPq hPsemi hPsafe hNsemi]
      rw [if_neg (hn0 ▸ hv0 ▸ hstrip)]
  · -- query present in the reassembled string
    have hn0 : reassembleCore l =
        (urlparseCore l).scheme ++ ':' :: '/' :: '/' ::
          ((urlparseCore l).netloc ++ (urlparseCore l).path ++ '?' :: (urlparseCore l).query) := by
      rw [hshape]; simp [hQe]
    by_cases hc : (reassembleCore l).getLast? = some '/' ∧ 3 < (reassembleCore l).count '/'
    · -- strip case: the last character comes from the query
      have hv0 : normalizeCore l = (reassembleCore l).dropLast := by
        rw [normalizeCore_unfold, if_pos hc]
      have hvshape : normalizeCore l =
          (urlparseCore l).scheme ++ ':' :: '/' :: '/' ::
            ((urlparseCore l).netloc ++ (urlparseCore l).path ++
              '?' :: (urlparseCore l).query.dropLast) := by
        rw [hv0, hn0]
        have h1 : (urlparseCore l).scheme ++ ':' :: '/' :: '/' ::
            ((urlparseCore l).netloc ++ (urlparseCore l).path ++ '?' :: (urlparseCore l).query) =
            ((urlparseCore l).scheme ++ ':' :: '/' :: '/' ::
              ((urlparseCore l).netloc ++ (urlparseCore l).path) ++ ['?']) ++
              (urlparseCore l).query := by
          simp [List.append_assoc]
        rw [h1, List.dropLast_append_of_ne_nil _ hQe]
        simp [List.append_assoc]
      by_cases hQde : (urlparseCore l).query.dropLast = []
      · -- the stripped form would end in '?', excluded by hypothesis
        exfalso
        apply hq
        rw [hvshape, hQde]
        have h2 : (urlparseCore l).scheme ++ ':' :: '/' :: '/' ::
            ((urlparseCore l).netloc ++ (urlparseCore l).path ++ '?' :: []) =
            ((urlparseCore l).scheme ++ ':' :: '/' :: '/' ::
              ((urlparseCore l).netloc ++ (urlparseCore l).path)) ++ ['?'] := by
          simp [List.append_assoc]
        rw [h2, List.getLast?_concat]
      · have hsub := (List.dropLast_sublist (urlparseCore l).query).subset
        rw [hvshape]
        rw [normalizeCore_unfold]
        rw [reassembleCore_fixed_query _ _ _ _ hv hl hNdelim hNsafe hPh hPq hPsemi hPsafe hNsemi
          hQde (fun hm => hQh (hsub hm)) (fun c hc2 => hQsafe c (hsub hc2))]
        rw [if_neg (hvshape ▸ hstrip)]
    · -- no strip
      have hv0 : normalizeCore l = reassembleCore l := by
        rw [normalizeCore_unfold, if_neg hc]
      rw [hv0, hn0]
      rw [normalizeCore_unfold]
      rw [reassembleCore_fixed_query _ _ _ _ hv hl hNdelim hNsafe hPh hPq hPsemi hPsafe hNsemi
        hQe hQh hQsafe]
      rw [if_neg (hn0 ▸ hv0 ▸ hstrip)]


/-! ## Fragment removal -/

theorem schemeChars_ne_hash2 (pre : List Char) (hv : validScheme pre = true) : '#' ∉ pre :=
  fun hm => schemeChars_ne_hash _ (validScheme_chars pre hv _ hm) rfl

theorem schemeSplit_frag (B T : List Char) (hB : '#' ∉ B) :
    schemeSplit (B ++ '#' :: T) = ((schemeSplit B).1, (schemeSplit B).2 ++ '#' :: T) := by
  cases h : splitFirst ':' B with
  | none =>
    have hncB : ':' ∉ B := splitFirst_none_not_mem ':' B h
    have hB2 : schemeSplit B = ([], B) := by unfold schemeSplit; rw [h]
    rw [hB2]
    cases h2 : splitFirst ':' (B ++ '#' :: T) with
    | none => unfold schemeSplit; rw [h2]
    | some pq =>
      obtain ⟨pre, post⟩ := pq
      obtain ⟨hl2, hnp⟩ := splitFirst_some_spec ':' _ pre post h2
      have hhash : '#' ∈ pre := by
        rcases List.append_eq_append_iff.mp hl2 with ⟨a', ha1, ha2⟩ | ⟨c', hc1, hc2⟩
        · cases a' with
          | nil =>
            rw [List.append_nil] at ha1
            simp only [List.nil_append] at ha2
            exact absurd (List.cons.injEq .. ▸ ha2).1 (by decide)
          | cons x a'' =>
            have hx : x = '#' := by
              have := ha2
              rw [List.cons_append] at this
              exact ((List.cons.injEq .. ▸ this).1).symm
            rw [ha1, hx]
            simp
        · cases c' with
          | nil =>
            rw [List.nil_append] at hc2
            exact absurd (List.cons.injEq .. ▸ hc2).1 (by decide)
          | cons x c'' =>
            exfalso
            have hx : ':' = x := by
              rw [List.cons_append] at hc2
              exact (List.cons.injEq .. ▸ hc2).1
            apply hncB
            rw [hc1, ← hx]
            simp
      have hvf : ¬ validScheme pre = true := by
        intro hv
        exact schemeChars_ne_hash2 pre hv hhash
      unfold schemeSplit
      rw [h2]
      simp only [if_neg hvf]
  | some pq =>
    obtain ⟨pre, post⟩ := pq
    obtain ⟨hl2, hnp⟩ := splitFirst_some_spec ':' B pre post h
    have h3 : splitFirst ':' (B ++ '#' :: T) = some (pre, post ++ '#' :: T) := by
      rw [hl2, List.append_assoc, List.cons_append]
      exact splitFirst_append_cons ':' pre (post ++ '#' :: T) hnp
    unfold schemeSplit
    rw [h, h3]
    by_cases hv : validScheme pre
    · simp only [if_pos hv]
    · simp only [if_neg hv, hl2]

theorem netlocSplit_frag (R T : List Char) :
    netlocSplit (R ++ '#' :: T) = ((netlocSplit R).1, (netlocSplit R).2 ++ '#' :: T) := by
  rcases R with - | ⟨a, - | ⟨b, t⟩⟩
  · cases T <;> simp [netlocSplit]
  · simp [netlocSplit]
  · by_cases hab : a = '/' ∧ b = '/'
    · obtain ⟨rfl, rfl⟩ := hab
      have e1 : netlocSplit ('/' :: '/' :: (t ++ '#' :: T)) =
          ((t ++ '#' :: T).takeWhile notDelim, (t ++ '#' :: T).dropWhile notDelim) := by
        simp [netlocSplit]
      have e2 : netlocSplit ('/' :: '/' :: t) =
          (t.takeWhile notDelim, t.dropWhile notDelim) := by
        simp [netlocSplit]
      rw [List.cons_append, List.cons_append, e1, e2,
        takeWhile_append_stop notDelim t T '#' (by decide),
        dropWhile_append_stop notDelim t T '#' (by decide)]
    · simp only [List.cons_append, netlocSplit, if_neg hab]

theorem preClean_frag (B T : List Char) :
    preClean (B ++ '#' :: T) = preClean B ++ '#' :: T.filter urlSafeChar := by
  unfold preClean
  rw [dropWhile_append_stop c0ControlOrSpace B T '#' (by decide)]
  rw [List.filter_append, List.filter_cons, if_pos (show urlSafeChar '#' = true by decide)]

theorem urlparseCore_frag (B T : List Char) (hB : '#' ∉ B) :
    (urlparseCore (B ++ '#' :: T)).scheme = (urlparseCore B).scheme ∧
    (urlparseCore (B ++ '#' :: T)).netloc = (urlparseCore B).netloc ∧
    (urlparseCore (B ++ '#' :: T)).path = (urlparseCore B).path ∧
    (urlparseCore (B ++ '#' :: T)).query = (urlparseCore B).query := by
  have hBc : '#' ∉ preClean B := fun hm => hB (preClean_subset B _ hm)
  have hR1 : '#' ∉ (schemeSplit (preClean B)).2 :=
    fun hm => hBc (schemeSplit_snd_subset (preClean B) _ hm)
  have hR2 : '#' ∉ (netlocSplit (schemeSplit (preClean B)).2).2 :=
    fun hm => hR1 ((netlocSplit_spec (schemeSplit (preClean B)).2).2.2 _ hm)
  have hfragB : fragSplit (netlocSplit (schemeSplit (preClean B)).2).2 =
      ((netlocSplit (schemeSplit (preClean B)).2).2, []) := by
    unfold fragSplit
    rw [splitFirst_eq_none '#' _ hR2]
  have hfragT : fragSplit ((netlocSplit (schemeSplit (preClean B)).2).2 ++
      '#' :: T.filter urlSafeChar) =
      ((netlocSplit (schemeSplit (preClean B)).2).2, T.filter urlSafeChar) := by
    unfold fragSplit
    rw [splitFirst_append_cons '#' _ _ hR2]
  simp only [urlparseCore, preClean_frag B T, schemeSplit_frag (preClean B) _ hBc,
    netlocSplit_frag, hfragB, hfragT]
  exact ⟨trivial, trivial, trivial, trivial⟩

theorem normalizeCore_frag (B T : List Char) (hB : '#' ∉ B) :
    normalizeCore (B ++ '#' :: T) = normalizeCore B := by
  obtain ⟨h1, h2, h3, h4⟩ := urlparseCore_frag B T hB
  simp only [normalizeCore, reassembleCore, h1, h2, h3, h4]


/-- C5 counterexample: normalization is not idempotent — the trailing
slash strip removes only one slash per application, so a path ending in
`//` loses one more slash on the second pass. -/
theorem C5_idempotence_counterexample :
    normalize_url "https://x.com/p//" = "https://x.com/p/" ∧
    normalize_url "https://x.com/p/" = "https://x.com/p" ∧
    normalize_url (normalize_url "https://x.com/p//") ≠ normalize_url "https://x.com/p//" := by
  exact ⟨by decide, by decide, by decide⟩

/-- C5 amended: normalization is idempotent for every URL that contains
no `;`, parses with a non-empty scheme, and whose normalized form
neither ends in `?` nor still ends in `/` while containing more than
three slashes.  Outside these conditions a second application can strip
further characters (trailing `//`, a dangling `?`, or path params
re-split after a slash strip). -/
theorem C5_normalize_idempotent_conditional (u : String)
    (hS : (urlparse u).scheme ≠ [])
    (hsemi : ';' ∉ u.data)
    (hq : (normalize_url u).data.getLast? ≠ some '?')
    (hstrip : ¬((normalize_url u).data.getLast? = some '/' ∧
      3 < (normalize_url u).data.count '/')) :
    normalize_url (normalize_url u) = normalize_url u :=
  congrArg (fun l => (⟨l⟩ : String)) (normalizeCore_idem u.data hS hsemi hq hstrip)

/-- Witness for C5 at a concrete URL satisfying the conditions. -/
theorem C5_normalize_idempotent_conditional_witness :
    normalize_url (normalize_url "https://x.com/a/b") = normalize_url "https://x.com/a/b" :=
  C5_normalize_idempotent_conditional "https://x.com/a/b" (by decide) (by decide)
    (by decide) (by decide)

/-- C6 counterexample: `urlparse` lower-cases only the scheme, not the
host, so the netloc's case is preserved; and the trailing-slash strip
condition counts every slash of the reassembled URL, so it can remove
the final character of the query even when the path is a single `/`. -/
theorem C6_host_not_lowered_counterexample :
    normalize_url "https://HOST.com/p" = "https://HOST.com/p" ∧
    "https://HOST.com/p" ≠ "https://host.com/p" ∧
    normalize_url "https://x.com/?a=/" = "https://x.com/?a=" := by
  exact ⟨by decide, by decide, by decide⟩

/-- C6 amended: normalization lower-cases the scheme (the parsed scheme
is already lower case) but preserves the host verbatim; it removes the
fragment entirely, so any two URLs differing only in the fragment
normalize identically; it preserves the query except when the
trailing-slash strip removes its final character; and it strips one
trailing slash exactly when the reassembled URL ends in `/` and has
more than three slashes, giving the trailing-slash equivalence for
multi-segment paths. -/
theorem C6_normalize_characterization :
    (∀ u : String, (urlparse u).scheme.map pyLowerChar = (urlparse u).scheme) ∧
    (∀ base t : String, '#' ∉ base.data →
      normalize_url (base ++ "#" ++ t) = normalize_url base) ∧
    normalize_url "HTTPS://x.com/p" = "https://x.com/p" ∧
    normalize_url "https://HOST.com/p" = "https://HOST.com/p" ∧
    normalize_url "https://x.com/p/" = normalize_url "https://x.com/p" ∧
    normalize_url "https://x.com/p?q=test" = "https://x.com/p?q=test" := by
  refine ⟨?_, ?_, by decide, by decide, by decide, by decide⟩
  · intro u
    rcases (urlparseCore_spec u.data).1 with h | ⟨-, h⟩
    · rw [show (urlparse u).scheme = (urlparseCore u.data).scheme from rfl, h]
      rfl
    · exact h
  · intro base t hB
    have hd : (base ++ "#" ++ t).data = base.data ++ '#' :: t.data := by
      rw [show (base ++ "#" ++ t).data = base.data ++ ['#'] ++ t.data from rfl,
        List.append_assoc]
      rfl
    show (⟨normalizeCore (base ++ "#" ++ t).data⟩ : String) = ⟨normalizeCore base.data⟩
    rw [hd]
    exact congrArg (fun l => (⟨l⟩ : String)) (normalizeCore_frag base.data t.data hB)

/-- Witness for C6: fragment equivalence at a concrete URL, and the
scheme-lower-casing fact at a concrete URL. -/
theorem C6_normalize_characterization_witness :
    normalize_url ("https://x.com/p" ++ "#" ++ "sec") = normalize_url "https://x.com/p" ∧
    (urlparse "https://X.com/p").scheme.map pyLowerChar =
      (urlparse "https://X.com/p").scheme :=
  ⟨C6_normalize_characterization.2.1 "https://x.com/p" "sec" (by decide),
   C6_normalize_characterization.1 "https://X.com/p"⟩


end Scraper
